import Mathlib

/-!
# Verification of the gapless audio streaming pipeline

A shallow embedding of the three core components of the repository:

* `ChunkValidator` (src/lib/chunkValidator.ts): the staleness filter keeping a
  single transcript watermark.
* `StreamingAudioBuffer` (src/unnamed/part_005): the sequence-reordering buffer
  that releases chunks strictly in ascending index order.
* `WebAudioStreamer` (src/unnamed/part_002): the playback scheduler owning the
  timeline cursor `nextStartTime`.

Conventions of the embedding:

* JavaScript `number` clock values and durations are modelled as `ℚ` (the
  scheduler's arithmetic `nextStartTime = startTime + duration` is literal
  addition in the source; `ℚ` keeps it exact and decidable).
* The ambient `AudioContext.currentTime` clock and the context running state
  are passed as explicit arguments to each operation.
* JavaScript mutation becomes state passing; methods that fire callbacks
  return the list of callback payloads alongside the new state.
* `try`/`catch` bodies that can throw become `Option`-valued decoders; a
  caught error corresponds to `none`.
-/

/-! ## ChunkValidator (src/lib/chunkValidator.ts)

The `reason` strings of the source are log diagnostics built with
`substring`; they carry no control flow and are omitted from the embedding.
`applyValidation` is a no-op in the source and is omitted. -/

structure ChunkValidationResult where
  isValid : Bool
  newPosition : Nat
deriving Repr, DecidableEq

structure ChunkValidator where
  expectedText : String
deriving Repr, DecidableEq

namespace ChunkValidator

/-- Fresh validator: `expectedText` initialised to the empty string. -/
def initial : ChunkValidator := ⟨""⟩

/-- `setExpectedText(text)`: installs `text.trim()` as the watermark. -/
def setExpectedText (_v : ChunkValidator) (text : String) : ChunkValidator :=
  ⟨text.trim⟩

/-- `reset()`: clears the watermark. -/
def reset (_v : ChunkValidator) : ChunkValidator :=
  ⟨""⟩

/-- `validateChunk(incomingText)`: reject when no watermark is set
(JS falsy test on the string), reject whitespace-only input, accept exactly
when the trimmed input equals the watermark. -/
def validateChunk (v : ChunkValidator) (incomingText : String) :
    ChunkValidationResult :=
  if v.expectedText = "" then
    ⟨false, 0⟩
  else
    let cleanIncomingText := incomingText.trim
    if cleanIncomingText = "" then
      ⟨false, 0⟩
    else if cleanIncomingText = v.expectedText then
      ⟨true, 0⟩
    else
      ⟨false, 0⟩

/-- `isActive()`. -/
def isActive (v : ChunkValidator) : Bool :=
  v.expectedText ≠ ""

end ChunkValidator

/-! ## StreamingAudioBuffer (src/unnamed/part_005) -/

structure BufferedAudioChunk where
  audioData : List String
  chunkIndex : Nat
  timestamp : Nat
  isComplete : Bool
deriving Repr, DecidableEq

structure StreamingAudioBuffer where
  audioQueue : List BufferedAudioChunk
  nextExpectedIndex : Nat
  processedChunks : List Nat
deriving Repr, DecidableEq

namespace StreamingAudioBuffer

/-- Fresh buffer as built by the constructor. -/
def initial : StreamingAudioBuffer := ⟨[], 0, []⟩

/-- The `while` loop of `insertChunkInOrder`: walk past entries whose
`chunkIndex` is smaller than the new chunk's, splice the new chunk there. -/
def insertChunkInOrderAux (newChunk : BufferedAudioChunk) :
    List BufferedAudioChunk → List BufferedAudioChunk
  | [] => [newChunk]
  | c :: rest =>
    if c.chunkIndex < newChunk.chunkIndex then
      c :: insertChunkInOrderAux newChunk rest
    else
      newChunk :: c :: rest

/-- `insertChunkInOrder`: skip if an entry with the same index already
exists, else insert maintaining index order. -/
def insertChunkInOrder (q : List BufferedAudioChunk)
    (newChunk : BufferedAudioChunk) : List BufferedAudioChunk :=
  if q.any (fun c => c.chunkIndex == newChunk.chunkIndex) then q
  else insertChunkInOrderAux newChunk q

/-- The `audioQueue.find` + in-place mutation of `addAudioChunk` lines 36-40:
the first entry with the given index gets the segment appended and its
`isComplete` flag overwritten. -/
def updateFirstChunk (chunkIndex : Nat) (seg : String) (isComplete : Bool) :
    List BufferedAudioChunk → List BufferedAudioChunk
  | [] => []
  | c :: rest =>
    if c.chunkIndex == chunkIndex then
      { c with audioData := c.audioData ++ [seg], isComplete := isComplete } :: rest
    else
      c :: updateFirstChunk chunkIndex seg isComplete rest

/-- Result of draining the ready prefix of the queue: the remaining queue,
the advanced cursor, the grown processed set, and the emitted
`(combined, chunkIndex)` callback payloads in emission order. -/
structure DrainResult where
  audioQueue : List BufferedAudioChunk
  nextExpectedIndex : Nat
  processedChunks : List Nat
  emitted : List (String × Nat)
deriving Repr, DecidableEq

/-- The `while` loop of `processReadyChunks`: as long as the queue head has
index `nextExpectedIndex` and is complete, shift it, emit the joined
segments, mark the index processed and advance the cursor. -/
def processReadyChunksAux :
    List BufferedAudioChunk → Nat → List Nat → DrainResult
  | [], next, processed => ⟨[], next, processed, []⟩
  | c :: rest, next, processed =>
    if c.chunkIndex = next ∧ c.isComplete = true then
      ⟨(processReadyChunksAux rest (next + 1) (c.chunkIndex :: processed)).audioQueue,
        (processReadyChunksAux rest (next + 1) (c.chunkIndex :: processed)).nextExpectedIndex,
        (processReadyChunksAux rest (next + 1) (c.chunkIndex :: processed)).processedChunks,
        (String.join c.audioData, c.chunkIndex) ::
          (processReadyChunksAux rest (next + 1) (c.chunkIndex :: processed)).emitted⟩
    else
      ⟨c :: rest, next, processed, []⟩

/-- `processReadyChunks` on a buffer state. -/
def processReadyChunks (s : StreamingAudioBuffer) :
    StreamingAudioBuffer × List (String × Nat) :=
  let r := processReadyChunksAux s.audioQueue s.nextExpectedIndex s.processedChunks
  (⟨r.audioQueue, r.nextExpectedIndex, r.processedChunks⟩, r.emitted)

/-- The queue-update phase of `addAudioChunk` (lines 33-53): find-or-create
the entry for `chunkIndex`, append the segment, overwrite the completeness
flag. Factored out because it runs before the drain. -/
def addChunkToQueue (q : List BufferedAudioChunk) (seg : String)
    (chunkIndex : Nat) (isComplete : Bool) (timestamp : Nat) :
    List BufferedAudioChunk :=
  if q.any (fun c => c.chunkIndex == chunkIndex) then
    updateFirstChunk chunkIndex seg isComplete q
  else
    insertChunkInOrder q ⟨[seg], chunkIndex, timestamp, isComplete⟩

/-- `addAudioChunk(audioData, chunkIndex, isComplete)`: skip indices already
processed and released; otherwise update the queue and drain ready chunks.
`timestamp` stands for the ambient `Date.now()`. Returns the new state and
the `onAudioReady` payloads emitted by this call. -/
def addAudioChunk (s : StreamingAudioBuffer) (seg : String) (chunkIndex : Nat)
    (isComplete : Bool) (timestamp : Nat) :
    StreamingAudioBuffer × List (String × Nat) :=
  if s.processedChunks.contains chunkIndex then
    (s, [])
  else
    processReadyChunks
      ⟨addChunkToQueue s.audioQueue seg chunkIndex isComplete timestamp,
        s.nextExpectedIndex, s.processedChunks⟩

/-- `reset()`: empty queue, cursor 0, cleared processed set. -/
def reset (_s : StreamingAudioBuffer) : StreamingAudioBuffer :=
  ⟨[], 0, []⟩

/-- One `addAudioChunk` delivery from the network layer. -/
structure BufferEvent where
  seg : String
  chunkIndex : Nat
  isComplete : Bool
  timestamp : Nat
deriving Repr, DecidableEq

/-- Run a sequence of deliveries, concatenating the emitted payloads. -/
def runEvents (s : StreamingAudioBuffer) :
    List BufferEvent → StreamingAudioBuffer × List (String × Nat)
  | [] => (s, [])
  | e :: rest =>
    let r := addAudioChunk s e.seg e.chunkIndex e.isComplete e.timestamp
    let r2 := runEvents r.1 rest
    (r2.1, r.2 ++ r2.2)

/-- The final buffer state after a sequence of deliveries starting from a
fresh buffer. -/
def runState (evs : List BufferEvent) : StreamingAudioBuffer :=
  (runEvents initial evs).1

/-- The indices emitted to `onAudioReady` over a delivery sequence starting
from a fresh buffer, in emission order. -/
def emittedIndices (evs : List BufferEvent) : List Nat :=
  (runEvents initial evs).2.map Prod.snd

/-- `true` when deliveries for index `i` occur and the last of them carries
`isComplete = true` (a later incomplete delivery would re-mark the entry
incomplete, see `addAudioChunk`). -/
def lastCallComplete (evs : List BufferEvent) (i : Nat) : Bool :=
  match (evs.filter (fun e => e.chunkIndex == i)).getLast? with
  | some e => e.isComplete
  | none => false

/-- Queue indices are strictly ascending. -/
def QueueSorted (q : List BufferedAudioChunk) : Prop :=
  (q.map (fun c => c.chunkIndex)).Pairwise (· < ·)

/-- The invariant of the claim: the released set is exactly the initial
segment below the cursor, and everything still queued is at or above the
cursor. -/
def SeqInv (s : StreamingAudioBuffer) : Prop :=
  (∀ m, m ∈ s.processedChunks ↔ m < s.nextExpectedIndex) ∧
  (∀ c ∈ s.audioQueue, s.nextExpectedIndex ≤ c.chunkIndex)

/-- No release is pending: the queue head is not a complete chunk sitting at
the cursor. Every state left behind by `processReadyChunks` is stable. -/
def Stable (s : StreamingAudioBuffer) : Prop :=
  ∀ c, s.audioQueue.head? = some c →
    c.chunkIndex = s.nextExpectedIndex → c.isComplete = false

/-- All structural invariants together. -/
def GoodState (s : StreamingAudioBuffer) : Prop :=
  SeqInv s ∧ QueueSorted s.audioQueue ∧ Stable s

/-- Index `i` can no longer be lost: either a complete entry for it is
queued, or it has already been released. -/
def Settled (i : Nat) (s : StreamingAudioBuffer) : Prop :=
  (∃ c ∈ s.audioQueue, c.chunkIndex = i ∧ c.isComplete = true) ∨
    i ∈ s.processedChunks

end StreamingAudioBuffer

/-! ## WebAudioStreamer (src/unnamed/part_002)

The decoder pipeline of `enqueue`: browser `atob`, then either direct PCM
conversion or `decodeAudioData`. The compressed-container decoder is a
browser builtin, so it enters the embedding as an abstract
`mp3Decode : List Nat → Option AudioBuffer` parameter. -/

/-- HTML ASCII whitespace, stripped by forgiving-base64 decode. -/
def isB64Whitespace (c : Char) : Bool :=
  c == ' ' || c == '\t' || c == '\n' || c == '\x0c' || c == '\r'

/-- Value of one character of the base64 alphabet. -/
def b64Val (c : Char) : Option Nat :=
  if 'A' ≤ c ∧ c ≤ 'Z' then some (c.toNat - 65)
  else if 'a' ≤ c ∧ c ≤ 'z' then some (c.toNat - 97 + 26)
  else if '0' ≤ c ∧ c ≤ '9' then some (c.toNat - 48 + 52)
  else if c = '+' then some 62
  else if c = '/' then some 63
  else none

/-- Decode base64 sextets four at a time; a final group of two or three
characters yields one or two bytes, a lone trailing character is invalid. -/
def atobGroups : List Char → Option (List Nat)
  | a :: b :: c :: d :: rest => do
      let va ← b64Val a
      let vb ← b64Val b
      let vc ← b64Val c
      let vd ← b64Val d
      let bits := ((va * 64 + vb) * 64 + vc) * 64 + vd
      let tail ← atobGroups rest
      pure ([bits / 65536, bits / 256 % 256, bits % 256] ++ tail)
  | [a, b] => do
      let va ← b64Val a
      let vb ← b64Val b
      pure [(va * 64 + vb) / 16]
  | [a, b, c] => do
      let va ← b64Val a
      let vb ← b64Val b
      let vc ← b64Val c
      let bits := (va * 64 + vb) * 64 + vc
      pure [bits / 1024, bits / 4 % 256]
  | [_] => none
  | [] => some []

/-- Browser `atob` (HTML forgiving-base64): strip ASCII whitespace, strip up
to two trailing `=` when the length is a multiple of four, reject a
remainder of one, decode. `none` models the thrown `InvalidCharacterError`,
caught by `enqueue`'s `try`. -/
def atob (s : String) : Option (List Nat) :=
  let cs := s.data.filter (fun c => !(isB64Whitespace c))
  let cs :=
    if cs.length % 4 = 0 then
      if cs.reverse.take 2 = ['=', '='] then cs.dropLast.dropLast
      else if cs.reverse.take 1 = ['='] then cs.dropLast
      else cs
    else cs
  if cs.length % 4 = 1 then none else atobGroups cs

/-- A decoded sample buffer as produced by `createBuffer`/`decodeAudioData`. -/
structure AudioBuffer where
  length : Nat
  sampleRate : ℚ
  channelData : List ℚ
deriving Repr, DecidableEq

/-- `AudioBuffer.duration`. -/
def AudioBuffer.duration (b : AudioBuffer) : ℚ :=
  (b.length : ℚ) / b.sampleRate

/-- Signed 16-bit little-endian sample from two bytes. -/
def int16OfBytes (lo hi : Nat) : ℤ :=
  let v := lo + 256 * hi
  if v < 32768 then (v : ℤ) else (v : ℤ) - 65536

/-- The PCM branch of `enqueue` (lines 79-95): 48 kHz mono 16-bit.
`createBuffer` throws on a zero sample count, and an odd byte length makes
the final `getInt16` read past the buffer and throw a `RangeError`; both
thrown errors are `none` here. -/
def pcmDecode (bytes : List Nat) : Option AudioBuffer :=
  if bytes.length = 0 ∨ bytes.length % 2 = 1 then none
  else
    let numSamples := bytes.length / 2
    some
      { length := numSamples
        sampleRate := 48000
        channelData :=
          (List.range numSamples).map (fun i =>
            (int16OfBytes (bytes.getD (2 * i) 0) (bytes.getD (2 * i + 1) 0) : ℚ) / 32768) }

/-- An `AudioBufferSourceNode` after `source.start(startTime)`. -/
structure ScheduledSource where
  buffer : AudioBuffer
  startTime : ℚ
deriving Repr, DecidableEq

/-- Mutable state of the streamer. `scheduleLog` is ghost instrumentation:
it records every `source.start(t)` call ever made, in order, and is touched
by no operation except scheduling, which appends to it. -/
structure WebAudioStreamer where
  bufferQueue : List AudioBuffer
  isPlaying : Bool
  nextStartTime : ℚ
  scheduledSources : List ScheduledSource
  totalChunksReceived : Nat
  totalChunksPlayed : Nat
  audioDataChunks : List (List Nat)
  scheduleLog : List ScheduledSource
deriving Repr, DecidableEq

namespace WebAudioStreamer

/-- `BUFFER_AHEAD_TIME = 0.1`. -/
def BUFFER_AHEAD_TIME : ℚ := 1 / 10

/-- `MAX_BUFFER_SIZE = 10`. -/
def MAX_BUFFER_SIZE : Nat := 10

/-- The constructor: `nextStartTime = currentTime + BUFFER_AHEAD_TIME`. -/
def initial (now : ℚ) : WebAudioStreamer :=
  { bufferQueue := []
    isPlaying := false
    nextStartTime := now + BUFFER_AHEAD_TIME
    scheduledSources := []
    totalChunksReceived := 0
    totalChunksPlayed := 0
    audioDataChunks := []
    scheduleLog := [] }

/-- The `while` loop of `scheduleChunks` (lines 169-209): shift each queued
buffer in order, start a source at the cursor, advance the cursor by the
buffer's duration. Returns the created sources and the final cursor. -/
def scheduleChunksAux : List AudioBuffer → ℚ → List ScheduledSource × ℚ
  | [], t => ([], t)
  | b :: rest, t =>
    let r := scheduleChunksAux rest (t + b.duration)
    (⟨b, t⟩ :: r.1, r.2)

/-- `scheduleChunks` (lines 165-217). -/
def scheduleChunks (s : WebAudioStreamer) : WebAudioStreamer :=
  let r := scheduleChunksAux s.bufferQueue s.nextStartTime
  { s with
      bufferQueue := []
      scheduledSources := s.scheduledSources ++ r.1
      scheduleLog := s.scheduleLog ++ r.1
      nextStartTime := r.2
      totalChunksPlayed := s.totalChunksPlayed + s.bufferQueue.length }

/-- `continuePlayback` (lines 149-160): mark playing, bump the cursor to
`now + BUFFER_AHEAD_TIME` when the clock has caught up with it, schedule. -/
def continuePlayback (s : WebAudioStreamer) (now : ℚ) : WebAudioStreamer :=
  let s1 := { s with isPlaying := true }
  let s2 :=
    if s1.nextStartTime ≤ now then { s1 with nextStartTime := now + BUFFER_AHEAD_TIME }
    else s1
  scheduleChunks s2

/-- `startPlayback` (lines 135-147). With a suspended context the method
only initiates `resume()`; `continuePlayback` then runs later from the
promise callback, modelled as the separate operation `resumed`. -/
def startPlayback (s : WebAudioStreamer) (now : ℚ) (contextRunning : Bool) :
    WebAudioStreamer :=
  if s.bufferQueue.length = 0 then s
  else if contextRunning then continuePlayback s now
  else s

/-- The `resume().then(...)` callback of `startPlayback`, firing once the
context is running, at whatever clock value holds by then. -/
def resumed (s : WebAudioStreamer) (now : ℚ) : WebAudioStreamer :=
  continuePlayback s now

/-- Line 75 of `enqueue`: push the raw bytes for waveform analysis. This
happens before decoding, so it survives a decode failure. -/
def pushRaw (s : WebAudioStreamer) (bytes : List Nat) : WebAudioStreamer :=
  { s with audioDataChunks := s.audioDataChunks ++ [bytes] }

/-- Lines 102-109 of `enqueue`: when the pending queue is at
`MAX_BUFFER_SIZE`, shift off the oldest buffer (and trim the raw-bytes log
when it exceeds the capacity). -/
def dropIfFull (s : WebAudioStreamer) : WebAudioStreamer :=
  if MAX_BUFFER_SIZE ≤ s.bufferQueue.length then
    { s with
        bufferQueue := s.bufferQueue.drop 1
        audioDataChunks :=
          if MAX_BUFFER_SIZE < s.audioDataChunks.length then s.audioDataChunks.drop 1
          else s.audioDataChunks }
  else s

/-- Lines 111-113 of `enqueue`: push the decoded buffer and count it. -/
def pushDecoded (s : WebAudioStreamer) (audioBuffer : AudioBuffer) : WebAudioStreamer :=
  { s with
      bufferQueue := s.bufferQueue ++ [audioBuffer]
      totalChunksReceived := s.totalChunksReceived + 1 }

/-- Lines 102-124 of `enqueue`: everything after a successful decode. -/
def enqueueDecoded (s : WebAudioStreamer) (now : ℚ) (contextRunning : Bool)
    (audioBuffer : AudioBuffer) : WebAudioStreamer :=
  if (pushDecoded (dropIfFull s) audioBuffer).isPlaying = false then
    startPlayback (pushDecoded (dropIfFull s) audioBuffer) now contextRunning
  else
    scheduleChunks (pushDecoded (dropIfFull s) audioBuffer)

/-- `enqueue(base64Data, isPCM)` (lines 60-130). The whole body sits in a
`try`/`catch` that logs and absorbs decode errors, so the embedding is
total: a `none` from a decoder returns the state reached so far (the raw
bytes are pushed onto `audioDataChunks` before decoding, so a push survives
a later decode failure, exactly as in the source). -/
def enqueue (mp3Decode : List Nat → Option AudioBuffer) (s : WebAudioStreamer)
    (now : ℚ) (contextRunning : Bool) (base64Data : String) (isPCM : Bool) :
    WebAudioStreamer :=
  if base64Data = "" then s
  else
    match atob base64Data with
    | none => s
    | some bytes =>
      match (if isPCM then pcmDecode bytes else mp3Decode bytes) with
      | none => pushRaw s bytes
      | some audioBuffer => enqueueDecoded (pushRaw s bytes) now contextRunning audioBuffer

/-- `stop()` (lines 222-242): terminate every source, clear the queue, leave
the playing state, reset the cursor to `currentTime + BUFFER_AHEAD_TIME`. -/
def stop (s : WebAudioStreamer) (now : ℚ) : WebAudioStreamer :=
  { s with
      scheduledSources := []
      bufferQueue := []
      isPlaying := false
      nextStartTime := now + BUFFER_AHEAD_TIME }

/-- `resetSession()` (lines 263-269). -/
def resetSession (s : WebAudioStreamer) (now : ℚ) : WebAudioStreamer :=
  { stop s now with
      totalChunksReceived := 0
      totalChunksPlayed := 0
      audioDataChunks := [] }

/-- The `onended` handler of a scheduled source (lines 193-208): splice the
source out; when no sources and no queued buffers remain, playback stops. -/
def sourceEnded (s : WebAudioStreamer) (src : ScheduledSource) : WebAudioStreamer :=
  let sources := s.scheduledSources.erase src
  if sources.length = 0 ∧ s.bufferQueue.length = 0 then
    { s with scheduledSources := sources, isPlaying := false }
  else
    { s with scheduledSources := sources }

/-- Analytics block of `getStatus()`, restricted to fields the source
computes from state; the source returns the literal `0` for
`bufferUnderruns` and `bufferOverflows`. -/
structure StreamerAnalytics where
  totalChunksReceived : Nat
  totalChunksPlayed : Nat
  bufferUnderruns : Nat
  bufferOverflows : Nat
  isBuffering : Bool
deriving Repr, DecidableEq

structure StreamerStatus where
  isPlaying : Bool
  queueSize : Nat
  analytics : StreamerAnalytics
deriving Repr, DecidableEq

/-- `getStatus()` (lines 274-312). -/
def getStatus (s : WebAudioStreamer) (_now : ℚ) : StreamerStatus :=
  { isPlaying := s.isPlaying
    queueSize := s.bufferQueue.length + s.scheduledSources.length
    analytics :=
      { totalChunksReceived := s.totalChunksReceived
        totalChunksPlayed := s.totalChunksPlayed
        bufferUnderruns := 0
        bufferOverflows := 0
        isBuffering := s.scheduledSources.isEmpty && !s.bufferQueue.isEmpty } }

/-- The decode pipeline of `enqueue` in isolation: base64, then either the
direct PCM conversion or the abstract compressed-container decoder. `none`
exactly when the corresponding `enqueue` body throws into its `catch`. -/
def decodeChunk (mp3Decode : List Nat → Option AudioBuffer)
    (base64Data : String) (isPCM : Bool) : Option AudioBuffer :=
  (atob base64Data).bind (fun bytes => if isPCM then pcmDecode bytes else mp3Decode bytes)

/-- Gapless timeline: each source starts exactly where the previous one
ends, and the cursor `t` points at the end of the last source. -/
def Chained : List ScheduledSource → ℚ → Prop
  | [], _ => True
  | [src], t => t = src.startTime + src.buffer.duration
  | src :: src' :: rest, t =>
    src'.startTime = src.startTime + src.buffer.duration ∧ Chained (src' :: rest) t

/-- Every queued decoded buffer has a nonnegative duration (true of every
buffer the decoders can produce). -/
def QueueDurationsOk (s : WebAudioStreamer) : Prop :=
  ∀ b ∈ s.bufferQueue, 0 ≤ b.duration

/-- A half-second 48 kHz decoded buffer, as used in the three-chunk
scenario (sample data irrelevant to scheduling). -/
def halfSecondBuffer : AudioBuffer :=
  { length := 24000, sampleRate := 48000, channelData := [] }

/-- Placeholder for out-of-range `getD` lookups in adjacency statements. -/
def dummySource : ScheduledSource :=
  ⟨{ length := 0, sampleRate := 0, channelData := [] }, 0⟩

/-- A streamer whose pending queue sits exactly at `MAX_BUFFER_SIZE`, as
reached with a suspended audio context (scheduling deferred, so buffers
accumulate); the ten queued buffers are distinguishable by their lengths. -/
def fullStreamer : WebAudioStreamer :=
  { bufferQueue :=
      [⟨1, 1, []⟩, ⟨2, 1, []⟩, ⟨3, 1, []⟩, ⟨4, 1, []⟩, ⟨5, 1, []⟩,
        ⟨6, 1, []⟩, ⟨7, 1, []⟩, ⟨8, 1, []⟩, ⟨9, 1, []⟩, ⟨10, 1, []⟩]
    isPlaying := false
    nextStartTime := 0
    scheduledSources := []
    totalChunksReceived := 10
    totalChunksPlayed := 0
    audioDataChunks := []
    scheduleLog := [] }

end WebAudioStreamer

section StreamerSanity

example : atob "AAA=" = some [0, 0] := by decide

example : atob "!" = none := by decide

example : atob "AA==" = some [0] := by decide

example : (pcmDecode [0, 0]).map AudioBuffer.duration = some (1 / 48000) := by
  norm_num [pcmDecode, AudioBuffer.duration]

example : pcmDecode [7] = none := by decide

end StreamerSanity

/-! ## Lemmas about the sequence buffer -/

namespace StreamingAudioBuffer

theorem mem_insertChunkInOrderAux (n : BufferedAudioChunk) :
    ∀ (q : List BufferedAudioChunk) (c : BufferedAudioChunk),
      c ∈ insertChunkInOrderAux n q ↔ c = n ∨ c ∈ q := by
  intro q
  induction q with
  | nil => intro c; simp [insertChunkInOrderAux]
  | cons a rest ih =>
    intro c
    by_cases h : a.chunkIndex < n.chunkIndex
    · simp only [insertChunkInOrderAux, if_pos h, List.mem_cons, ih]
      tauto
    · simp only [insertChunkInOrderAux, if_neg h, List.mem_cons]

theorem sorted_insertChunkInOrderAux (n : BufferedAudioChunk) :
    ∀ (q : List BufferedAudioChunk), QueueSorted q →
      (∀ c ∈ q, c.chunkIndex ≠ n.chunkIndex) →
      QueueSorted (insertChunkInOrderAux n q) := by
  intro q
  induction q with
  | nil =>
    intro _ _
    simp [insertChunkInOrderAux, QueueSorted]
  | cons a rest ih =>
    intro hs hne
    rw [QueueSorted, List.map_cons, List.pairwise_cons] at hs
    by_cases h : a.chunkIndex < n.chunkIndex
    · simp only [insertChunkInOrderAux, if_pos h]
      rw [QueueSorted, List.map_cons, List.pairwise_cons]
      refine ⟨?_, ih hs.2 (fun c hc => hne c (List.mem_cons_of_mem a hc))⟩
      intro j hj
      obtain ⟨c, hc, rfl⟩ := List.mem_map.mp hj
      rcases (mem_insertChunkInOrderAux n rest c).mp hc with rfl | hc'
      · exact h
      · exact hs.1 _ (List.mem_map_of_mem _ hc')
    · simp only [insertChunkInOrderAux, if_neg h]
      rw [QueueSorted, List.map_cons, List.map_cons, List.pairwise_cons]
      constructor
      · intro j hj
        have hna : n.chunkIndex < a.chunkIndex :=
          lt_of_le_of_ne (Nat.le_of_not_lt h)
            (fun he => hne a (List.mem_cons_self a rest) he.symm)
        rcases List.mem_cons.mp hj with rfl | hj'
        · exact hna
        · exact lt_trans hna (hs.1 _ hj')
      · exact List.pairwise_cons.mpr hs

theorem queueSorted_eq_of_idx :
    ∀ (q : List BufferedAudioChunk), QueueSorted q →
      ∀ c ∈ q, ∀ c' ∈ q, c.chunkIndex = c'.chunkIndex → c = c' := by
  intro q
  induction q with
  | nil => intro _ c hc; cases hc
  | cons a rest ih =>
    intro hs c hc c' hc' he
    rw [QueueSorted, List.map_cons, List.pairwise_cons] at hs
    rcases List.mem_cons.mp hc with rfl | hc2 <;>
      rcases List.mem_cons.mp hc' with rfl | hc2'
    · rfl
    · exact absurd (he ▸ hs.1 _ (List.mem_map_of_mem _ hc2')) (lt_irrefl _)
    · exact absurd (he ▸ hs.1 _ (List.mem_map_of_mem _ hc2)) (by omega)
    · exact ih hs.2 c hc2 c' hc2' he

theorem map_chunkIndex_updateFirstChunk (i : Nat) (seg : String) (comp : Bool) :
    ∀ (q : List BufferedAudioChunk),
      (updateFirstChunk i seg comp q).map (fun c => c.chunkIndex) =
        q.map (fun c => c.chunkIndex) := by
  intro q
  induction q with
  | nil => rfl
  | cons a rest ih =>
    by_cases h : a.chunkIndex = i
    · simp [updateFirstChunk, h]
    · simp [updateFirstChunk, h, ih]

theorem mem_updateFirstChunk_of_ne (i : Nat) (seg : String) (comp : Bool)
    {c : BufferedAudioChunk} :
    ∀ (q : List BufferedAudioChunk), c ∈ q → c.chunkIndex ≠ i →
      c ∈ updateFirstChunk i seg comp q := by
  intro q
  induction q with
  | nil => intro hc; cases hc
  | cons a rest ih =>
    intro hc hne
    by_cases h : a.chunkIndex = i
    · have hb : (a.chunkIndex == i) = true := by simp [h]
      simp only [updateFirstChunk]
      rw [if_pos hb]
      rcases List.mem_cons.mp hc with rfl | hc2
      · exact absurd h hne
      · exact List.mem_cons_of_mem _ hc2
    · have hb : ¬ ((a.chunkIndex == i) = true) := by simp [h]
      simp only [updateFirstChunk]
      rw [if_neg hb]
      rcases List.mem_cons.mp hc with rfl | hc2
      · exact List.mem_cons_self _ _
      · exact List.mem_cons_of_mem _ (ih hc2 hne)

theorem exists_updated_of_any (i : Nat) (seg : String) (comp : Bool) :
    ∀ (q : List BufferedAudioChunk),
      q.any (fun c => c.chunkIndex == i) = true →
      ∃ c ∈ q, c.chunkIndex = i ∧
        { c with audioData := c.audioData ++ [seg], isComplete := comp } ∈
          updateFirstChunk i seg comp q := by
  intro q
  induction q with
  | nil => intro h; cases h
  | cons a rest ih =>
    intro hany
    by_cases h : a.chunkIndex = i
    · refine ⟨a, List.mem_cons_self _ _, h, ?_⟩
      have hb : (a.chunkIndex == i) = true := by simp [h]
      simp only [updateFirstChunk]
      rw [if_pos hb]
      exact List.mem_cons_self _ _
    · have hb : ¬ ((a.chunkIndex == i) = true) := by simp [h]
      have hany' : rest.any (fun c => c.chunkIndex == i) = true := by
        rw [List.any_cons] at hany
        rcases Bool.or_eq_true_iff.mp hany with h1 | h1
        · exact absurd h1 hb
        · exact h1
      obtain ⟨c, hc, hci, hmem⟩ := ih hany'
      refine ⟨c, List.mem_cons_of_mem _ hc, hci, ?_⟩
      simp only [updateFirstChunk]
      rw [if_neg hb]
      exact List.mem_cons_of_mem _ hmem

end StreamingAudioBuffer

namespace StreamingAudioBuffer

theorem PRCA_next_le :
    ∀ (q : List BufferedAudioChunk) (next : Nat) (processed : List Nat),
      next ≤ (processReadyChunksAux q next processed).nextExpectedIndex := by
  intro q
  induction q with
  | nil => intro next processed; exact Nat.le_refl next
  | cons a rest ih =>
    intro next processed
    by_cases hc : a.chunkIndex = next ∧ a.isComplete = true
    · simp only [processReadyChunksAux, if_pos hc]
      exact Nat.le_trans (Nat.le_succ next) (ih (next + 1) (a.chunkIndex :: processed))
    · simp only [processReadyChunksAux, if_neg hc]
      exact Nat.le_refl next

theorem PRCA_emitted_snd :
    ∀ (q : List BufferedAudioChunk) (next : Nat) (processed : List Nat),
      (processReadyChunksAux q next processed).emitted.map Prod.snd =
        List.range' next ((processReadyChunksAux q next processed).nextExpectedIndex - next) := by
  intro q
  induction q with
  | nil => intro next processed; simp [processReadyChunksAux]
  | cons a rest ih =>
    intro next processed
    by_cases hc : a.chunkIndex = next ∧ a.isComplete = true
    · simp only [processReadyChunksAux, if_pos hc, List.map_cons]
      have hle := PRCA_next_le rest (next + 1) (a.chunkIndex :: processed)
      have harith :
          (processReadyChunksAux rest (next + 1) (a.chunkIndex :: processed)).nextExpectedIndex - next =
            ((processReadyChunksAux rest (next + 1) (a.chunkIndex :: processed)).nextExpectedIndex -
              (next + 1)) + 1 := by omega
      rw [harith, List.range'_succ, ih (next + 1) (a.chunkIndex :: processed), hc.1]
    · simp only [processReadyChunksAux, if_neg hc]
      simp

theorem PRCA_processed_mono :
    ∀ (q : List BufferedAudioChunk) (next : Nat) (processed : List Nat) (m : Nat),
      m ∈ processed → m ∈ (processReadyChunksAux q next processed).processedChunks := by
  intro q
  induction q with
  | nil => intro next processed m hm; exact hm
  | cons a rest ih =>
    intro next processed m hm
    by_cases hc : a.chunkIndex = next ∧ a.isComplete = true
    · simp only [processReadyChunksAux, if_pos hc]
      exact ih (next + 1) (a.chunkIndex :: processed) m (List.mem_cons_of_mem _ hm)
    · simp only [processReadyChunksAux, if_neg hc]
      exact hm

theorem PRCA_processed_iff :
    ∀ (q : List BufferedAudioChunk) (next : Nat) (processed : List Nat),
      (∀ m, m ∈ processed ↔ m < next) →
      ∀ m, m ∈ (processReadyChunksAux q next processed).processedChunks ↔
        m < (processReadyChunksAux q next processed).nextExpectedIndex := by
  intro q
  induction q with
  | nil => intro next processed hp m; exact hp m
  | cons a rest ih =>
    intro next processed hp m
    by_cases hc : a.chunkIndex = next ∧ a.isComplete = true
    · simp only [processReadyChunksAux, if_pos hc]
      refine ih (next + 1) (a.chunkIndex :: processed) ?_ m
      intro m'
      rw [List.mem_cons, hp m', hc.1]
      omega
    · simp only [processReadyChunksAux, if_neg hc]
      exact hp m

theorem PRCA_queue_subset :
    ∀ (q : List BufferedAudioChunk) (next : Nat) (processed : List Nat)
      (c : BufferedAudioChunk),
      c ∈ (processReadyChunksAux q next processed).audioQueue → c ∈ q := by
  intro q
  induction q with
  | nil => intro next processed c hc; exact hc
  | cons a rest ih =>
    intro next processed c hc
    by_cases hcond : a.chunkIndex = next ∧ a.isComplete = true
    · simp only [processReadyChunksAux, if_pos hcond] at hc
      exact List.mem_cons_of_mem _ (ih (next + 1) (a.chunkIndex :: processed) c hc)
    · simp only [processReadyChunksAux, if_neg hcond] at hc
      exact hc

theorem PRCA_next_ub :
    ∀ (q : List BufferedAudioChunk) (next : Nat) (processed : List Nat) (N : Nat),
      (∀ c ∈ q, c.chunkIndex < N) → next ≤ N →
      (processReadyChunksAux q next processed).nextExpectedIndex ≤ N := by
  intro q
  induction q with
  | nil => intro next processed N _ h; exact h
  | cons a rest ih =>
    intro next processed N hb hn
    by_cases hc : a.chunkIndex = next ∧ a.isComplete = true
    · simp only [processReadyChunksAux, if_pos hc]
      refine ih (next + 1) (a.chunkIndex :: processed) N
        (fun c hc2 => hb c (List.mem_cons_of_mem _ hc2)) ?_
      have := hb a (List.mem_cons_self _ _)
      omega
    · simp only [processReadyChunksAux, if_neg hc]
      exact hn

theorem PRCA_sorted_lb :
    ∀ (q : List BufferedAudioChunk) (next : Nat) (processed : List Nat),
      QueueSorted q → (∀ c ∈ q, next ≤ c.chunkIndex) →
      QueueSorted (processReadyChunksAux q next processed).audioQueue ∧
        (∀ c ∈ (processReadyChunksAux q next processed).audioQueue,
          (processReadyChunksAux q next processed).nextExpectedIndex ≤ c.chunkIndex) := by
  intro q
  induction q with
  | nil =>
    intro next processed hs _
    exact ⟨hs, fun c hc => absurd hc (List.not_mem_nil c)⟩
  | cons a rest ih =>
    intro next processed hs hlb
    rw [QueueSorted, List.map_cons, List.pairwise_cons] at hs
    by_cases hc : a.chunkIndex = next ∧ a.isComplete = true
    · simp only [processReadyChunksAux, if_pos hc]
      refine ih (next + 1) (a.chunkIndex :: processed) hs.2 ?_
      intro c hc2
      have := hs.1 c.chunkIndex (List.mem_map_of_mem _ hc2)
      omega
    · simp only [processReadyChunksAux, if_neg hc]
      exact ⟨by rw [QueueSorted, List.map_cons]; exact List.pairwise_cons.mpr hs, hlb⟩

theorem PRCA_stable :
    ∀ (q : List BufferedAudioChunk) (next : Nat) (processed : List Nat)
      (c : BufferedAudioChunk),
      (processReadyChunksAux q next processed).audioQueue.head? = some c →
      c.chunkIndex = (processReadyChunksAux q next processed).nextExpectedIndex →
      c.isComplete = false := by
  intro q
  induction q with
  | nil => intro next processed c hh; cases hh
  | cons a rest ih =>
    intro next processed c hh hidx
    by_cases hc : a.chunkIndex = next ∧ a.isComplete = true
    · simp only [processReadyChunksAux, if_pos hc] at hh hidx
      exact ih (next + 1) (a.chunkIndex :: processed) c hh hidx
    · simp only [processReadyChunksAux, if_neg hc] at hh hidx
      have : a = c := by
        simpa using hh
      subst this
      cases hcomp : a.isComplete with
      | false => rfl
      | true => exact absurd ⟨hidx, hcomp⟩ hc

theorem PRCA_settled :
    ∀ (q : List BufferedAudioChunk) (next : Nat) (processed : List Nat) (i : Nat),
      ((∃ c ∈ q, c.chunkIndex = i ∧ c.isComplete = true) ∨ i ∈ processed) →
      ((∃ c ∈ (processReadyChunksAux q next processed).audioQueue,
          c.chunkIndex = i ∧ c.isComplete = true) ∨
        i ∈ (processReadyChunksAux q next processed).processedChunks) := by
  intro q
  induction q with
  | nil =>
    intro next processed i h
    rcases h with ⟨c, hc, _⟩ | h
    · exact absurd hc (List.not_mem_nil c)
    · exact Or.inr h
  | cons a rest ih =>
    intro next processed i h
    by_cases hc : a.chunkIndex = next ∧ a.isComplete = true
    · simp only [processReadyChunksAux, if_pos hc]
      refine ih (next + 1) (a.chunkIndex :: processed) i ?_
      rcases h with ⟨c, hcm, hci, hcc⟩ | hp
      · rcases List.mem_cons.mp hcm with rfl | hcm2
        · exact Or.inr (hci ▸ List.mem_cons_self _ _)
        · exact Or.inl ⟨c, hcm2, hci, hcc⟩
      · exact Or.inr (List.mem_cons_of_mem _ hp)
    · simp only [processReadyChunksAux, if_neg hc]
      exact h

theorem PRCA_incomplete_kept :
    ∀ (q : List BufferedAudioChunk) (next : Nat) (processed : List Nat) (i : Nat),
      (∀ c ∈ q, c.chunkIndex = i → c.isComplete = false) →
      (∀ p ∈ (processReadyChunksAux q next processed).emitted, p.2 ≠ i) ∧
        (∀ c ∈ q, c.chunkIndex = i →
          c ∈ (processReadyChunksAux q next processed).audioQueue) := by
  intro q
  induction q with
  | nil =>
    intro next processed i _
    exact ⟨fun p hp => absurd hp (List.not_mem_nil p),
      fun c hc _ => absurd hc (List.not_mem_nil c)⟩
  | cons a rest ih =>
    intro next processed i hinc
    by_cases hc : a.chunkIndex = next ∧ a.isComplete = true
    · have hane : a.chunkIndex ≠ i := by
        intro he
        exact absurd hc.2 (by rw [hinc a (List.mem_cons_self _ _) he]; simp)
      simp only [processReadyChunksAux, if_pos hc]
      have hr := ih (next + 1) (a.chunkIndex :: processed) i
        (fun c hc2 he => hinc c (List.mem_cons_of_mem _ hc2) he)
      constructor
      · intro p hp
        rcases List.mem_cons.mp hp with rfl | hp2
        · exact hane
        · exact hr.1 p hp2
      · intro c hcm he
        rcases List.mem_cons.mp hcm with rfl | hcm2
        · exact absurd he hane
        · exact hr.2 c hcm2 he
    · simp only [processReadyChunksAux, if_neg hc]
      exact ⟨fun p hp => absurd hp (List.not_mem_nil p), fun c hcm _ => hcm⟩

end StreamingAudioBuffer

namespace StreamingAudioBuffer

theorem contains_iff_mem (l : List Nat) (x : Nat) : l.contains x = true ↔ x ∈ l := by
  simp [List.contains]

theorem not_any_iff (q : List BufferedAudioChunk) (i : Nat) :
    q.any (fun c => c.chunkIndex == i) = false ↔ ∀ c ∈ q, c.chunkIndex ≠ i := by
  rw [← Bool.not_eq_true, List.any_eq_true]
  push_neg
  constructor
  · intro h c hc
    have := h c hc
    simpa using this
  · intro h c hc
    simpa using h c hc

theorem mem_addChunkToQueue_of_ne (q : List BufferedAudioChunk) (seg : String)
    (i : Nat) (comp : Bool) (ts : Nat) {c : BufferedAudioChunk}
    (hc : c ∈ q) (hne : c.chunkIndex ≠ i) :
    c ∈ addChunkToQueue q seg i comp ts := by
  by_cases hany : q.any (fun c => c.chunkIndex == i) = true
  · rw [addChunkToQueue, if_pos hany]
    exact mem_updateFirstChunk_of_ne i seg comp q hc hne
  · rw [addChunkToQueue, if_neg hany, insertChunkInOrder, if_neg hany]
    exact (mem_insertChunkInOrderAux _ q c).mpr (Or.inr hc)

theorem exists_complete_addChunkToQueue (q : List BufferedAudioChunk) (seg : String)
    (i : Nat) (ts : Nat) :
    ∃ c' ∈ addChunkToQueue q seg i true ts, c'.chunkIndex = i ∧ c'.isComplete = true := by
  by_cases hany : q.any (fun c => c.chunkIndex == i) = true
  · obtain ⟨c, _, hci, hmem⟩ := exists_updated_of_any i seg true q hany
    refine ⟨{ c with audioData := c.audioData ++ [seg], isComplete := true }, ?_, hci, rfl⟩
    rw [addChunkToQueue, if_pos hany]
    exact hmem
  · refine ⟨⟨[seg], i, ts, true⟩, ?_, rfl, rfl⟩
    rw [addChunkToQueue, if_neg hany, insertChunkInOrder, if_neg hany]
    exact (mem_insertChunkInOrderAux _ q _).mpr (Or.inl rfl)

theorem addChunkToQueue_sorted_lb (q : List BufferedAudioChunk) (seg : String)
    (i : Nat) (comp : Bool) (ts : Nat) (next : Nat)
    (hs : QueueSorted q) (hlb : ∀ c ∈ q, next ≤ c.chunkIndex) (hi : next ≤ i) :
    QueueSorted (addChunkToQueue q seg i comp ts) ∧
      ∀ c ∈ addChunkToQueue q seg i comp ts, next ≤ c.chunkIndex := by
  by_cases hany : q.any (fun c => c.chunkIndex == i) = true
  · rw [addChunkToQueue, if_pos hany]
    constructor
    · rw [QueueSorted, map_chunkIndex_updateFirstChunk]
      exact hs
    · intro c hc
      have hmem : c.chunkIndex ∈
          (updateFirstChunk i seg comp q).map (fun c => c.chunkIndex) :=
        List.mem_map_of_mem _ hc
      rw [map_chunkIndex_updateFirstChunk] at hmem
      obtain ⟨c', hc', he⟩ := List.mem_map.mp hmem
      exact he ▸ hlb c' hc'
  · have hne := (not_any_iff q i).mp (Bool.not_eq_true _ ▸ hany)
    rw [addChunkToQueue, if_neg hany, insertChunkInOrder, if_neg hany]
    constructor
    · exact sorted_insertChunkInOrderAux _ q hs (fun c hc => hne c hc)
    · intro c hc
      rcases (mem_insertChunkInOrderAux _ q c).mp hc with rfl | hc'
      · exact hi
      · exact hlb c hc'

theorem addChunkToQueue_ub (q : List BufferedAudioChunk) (seg : String)
    (i : Nat) (comp : Bool) (ts : Nat) (N : Nat)
    (hub : ∀ c ∈ q, c.chunkIndex < N) (hi : i < N) :
    ∀ c ∈ addChunkToQueue q seg i comp ts, c.chunkIndex < N := by
  by_cases hany : q.any (fun c => c.chunkIndex == i) = true
  · rw [addChunkToQueue, if_pos hany]
    intro c hc
    have hmem : c.chunkIndex ∈
        (updateFirstChunk i seg comp q).map (fun c => c.chunkIndex) :=
      List.mem_map_of_mem _ hc
    rw [map_chunkIndex_updateFirstChunk] at hmem
    obtain ⟨c', hc', he⟩ := List.mem_map.mp hmem
    exact he ▸ hub c' hc'
  · rw [addChunkToQueue, if_neg hany, insertChunkInOrder, if_neg hany]
    intro c hc
    rcases (mem_insertChunkInOrderAux _ q c).mp hc with rfl | hc'
    · exact hi
    · exact hub c hc'

theorem updateFirstChunk_all_incomplete (i : Nat) (seg : String) :
    ∀ q : List BufferedAudioChunk, QueueSorted q →
      ∀ c' ∈ updateFirstChunk i seg false q, c'.chunkIndex = i → c'.isComplete = false := by
  intro q
  induction q with
  | nil => intro _ c' hc'; cases hc'
  | cons a rest ih =>
    intro hs c' hc' hidx
    rw [QueueSorted, List.map_cons, List.pairwise_cons] at hs
    by_cases h : a.chunkIndex = i
    · have hb : (a.chunkIndex == i) = true := by simp [h]
      rw [updateFirstChunk, if_pos hb] at hc'
      rcases List.mem_cons.mp hc' with rfl | hc2
      · rfl
      · have := hs.1 c'.chunkIndex (List.mem_map_of_mem _ hc2)
        omega
    · have hb : ¬ ((a.chunkIndex == i) = true) := by simp [h]
      rw [updateFirstChunk, if_neg hb] at hc'
      rcases List.mem_cons.mp hc' with rfl | hc2
      · exact absurd hidx h
      · exact ih hs.2 c' hc2 hidx

theorem addChunkToQueue_all_incomplete (q : List BufferedAudioChunk) (seg : String)
    (i : Nat) (ts : Nat) (hs : QueueSorted q) :
    ∀ c' ∈ addChunkToQueue q seg i false ts, c'.chunkIndex = i → c'.isComplete = false := by
  by_cases hany : q.any (fun c => c.chunkIndex == i) = true
  · rw [addChunkToQueue, if_pos hany]
    exact updateFirstChunk_all_incomplete i seg q hs
  · have hne := (not_any_iff q i).mp (Bool.not_eq_true _ ▸ hany)
    rw [addChunkToQueue, if_neg hany, insertChunkInOrder, if_neg hany]
    intro c' hc' hidx
    rcases (mem_insertChunkInOrderAux _ q c').mp hc' with rfl | hc2
    · rfl
    · exact absurd hidx (hne c' hc2)

end StreamingAudioBuffer

namespace StreamingAudioBuffer

theorem addAudioChunk_next_mono (s : StreamingAudioBuffer) (seg : String)
    (i : Nat) (comp : Bool) (ts : Nat) :
    s.nextExpectedIndex ≤ (addAudioChunk s seg i comp ts).1.nextExpectedIndex := by
  by_cases hp : s.processedChunks.contains i = true
  · rw [addAudioChunk, if_pos hp]
  · rw [addAudioChunk, if_neg hp]
    exact PRCA_next_le _ _ _

theorem addAudioChunk_emitted (s : StreamingAudioBuffer) (seg : String)
    (i : Nat) (comp : Bool) (ts : Nat) :
    (addAudioChunk s seg i comp ts).2.map Prod.snd =
      List.range' s.nextExpectedIndex
        ((addAudioChunk s seg i comp ts).1.nextExpectedIndex - s.nextExpectedIndex) := by
  by_cases hp : s.processedChunks.contains i = true
  · rw [addAudioChunk, if_pos hp]
    simp
  · rw [addAudioChunk, if_neg hp]
    exact PRCA_emitted_snd _ _ _

theorem addAudioChunk_good (s : StreamingAudioBuffer) (seg : String)
    (i : Nat) (comp : Bool) (ts : Nat) (hg : GoodState s) :
    GoodState (addAudioChunk s seg i comp ts).1 := by
  by_cases hp : s.processedChunks.contains i = true
  · rw [addAudioChunk, if_pos hp]
    exact hg
  · rw [addAudioChunk, if_neg hp]
    have hi : s.nextExpectedIndex ≤ i := by
      have hnm : i ∉ s.processedChunks := fun hm => hp ((contains_iff_mem _ _).mpr hm)
      exact Nat.le_of_not_lt (fun hlt => hnm ((hg.1.1 i).mpr hlt))
    obtain ⟨hsort, hlb⟩ := addChunkToQueue_sorted_lb s.audioQueue seg i comp ts
      s.nextExpectedIndex hg.2.1 hg.1.2 hi
    refine ⟨⟨?_, ?_⟩, ?_, ?_⟩
    · exact PRCA_processed_iff _ _ _ hg.1.1
    · exact (PRCA_sorted_lb _ _ _ hsort hlb).2
    · exact (PRCA_sorted_lb _ _ _ hsort hlb).1
    · exact PRCA_stable _ _ _

theorem addAudioChunk_ub (s : StreamingAudioBuffer) (seg : String)
    (i : Nat) (comp : Bool) (ts : Nat) (N : Nat)
    (hq : ∀ c ∈ s.audioQueue, c.chunkIndex < N) (hi : i < N)
    (hn : s.nextExpectedIndex ≤ N) :
    (∀ c ∈ (addAudioChunk s seg i comp ts).1.audioQueue, c.chunkIndex < N) ∧
      (addAudioChunk s seg i comp ts).1.nextExpectedIndex ≤ N := by
  by_cases hp : s.processedChunks.contains i = true
  · rw [addAudioChunk, if_pos hp]
    exact ⟨hq, hn⟩
  · rw [addAudioChunk, if_neg hp]
    have hub := addChunkToQueue_ub s.audioQueue seg i comp ts N hq hi
    constructor
    · intro c hc
      exact hub c (PRCA_queue_subset _ _ _ c hc)
    · exact PRCA_next_ub _ _ _ N hub hn

theorem addAudioChunk_settled_preserve (s : StreamingAudioBuffer) (seg : String)
    (j : Nat) (comp : Bool) (ts : Nat) (i : Nat) (hne : j ≠ i)
    (hst : Settled i s) : Settled i (addAudioChunk s seg j comp ts).1 := by
  by_cases hp : s.processedChunks.contains j = true
  · rw [addAudioChunk, if_pos hp]
    exact hst
  · rw [addAudioChunk, if_neg hp]
    rcases hst with ⟨c, hc, hci, hcc⟩ | hpr
    · refine PRCA_settled _ _ _ i (Or.inl ⟨c, ?_, hci, hcc⟩)
      refine mem_addChunkToQueue_of_ne _ _ _ _ _ hc ?_
      rw [hci]
      exact fun he => hne he.symm
    · exact PRCA_settled _ _ _ i (Or.inr hpr)

theorem addAudioChunk_settles (s : StreamingAudioBuffer) (seg : String)
    (i : Nat) (ts : Nat) : Settled i (addAudioChunk s seg i true ts).1 := by
  by_cases hp : s.processedChunks.contains i = true
  · rw [addAudioChunk, if_pos hp]
    exact Or.inr ((contains_iff_mem _ _).mp hp)
  · rw [addAudioChunk, if_neg hp]
    obtain ⟨c', hc', hci, hcc⟩ := exists_complete_addChunkToQueue s.audioQueue seg i ts
    exact PRCA_settled _ _ _ i (Or.inl ⟨c', hc', hci, hcc⟩)

theorem runEvents_append :
    ∀ (xs ys : List BufferEvent) (s : StreamingAudioBuffer),
      (runEvents s (xs ++ ys)).1 = (runEvents (runEvents s xs).1 ys).1 ∧
      (runEvents s (xs ++ ys)).2 =
        (runEvents s xs).2 ++ (runEvents (runEvents s xs).1 ys).2 := by
  intro xs
  induction xs with
  | nil => intro ys s; simp [runEvents]
  | cons e rest ih =>
    intro ys s
    obtain ⟨h1, h2⟩ := ih ys (addAudioChunk s e.seg e.chunkIndex e.isComplete e.timestamp).1
    constructor
    · exact h1
    · show ((addAudioChunk s e.seg e.chunkIndex e.isComplete e.timestamp).2 ++
          (runEvents (addAudioChunk s e.seg e.chunkIndex e.isComplete e.timestamp).1
            (rest ++ ys)).2) = _
      rw [h2, ← List.append_assoc]
      rfl

theorem runEvents_next_mono :
    ∀ (evs : List BufferEvent) (s : StreamingAudioBuffer),
      s.nextExpectedIndex ≤ (runEvents s evs).1.nextExpectedIndex := by
  intro evs
  induction evs with
  | nil => intro s; exact Nat.le_refl _
  | cons e rest ih =>
    intro s
    exact Nat.le_trans
      (addAudioChunk_next_mono s e.seg e.chunkIndex e.isComplete e.timestamp)
      (ih (addAudioChunk s e.seg e.chunkIndex e.isComplete e.timestamp).1)

theorem runEvents_good :
    ∀ (evs : List BufferEvent) (s : StreamingAudioBuffer),
      GoodState s → GoodState (runEvents s evs).1 := by
  intro evs
  induction evs with
  | nil => intro s hg; exact hg
  | cons e rest ih =>
    intro s hg
    exact ih _ (addAudioChunk_good s e.seg e.chunkIndex e.isComplete e.timestamp hg)

theorem range'_glue (a b c : Nat) (h1 : a ≤ b) (h2 : b ≤ c) :
    List.range' a (b - a) ++ List.range' b (c - b) = List.range' a (c - a) := by
  obtain ⟨m, rfl⟩ : ∃ m, b = a + m := ⟨b - a, by omega⟩
  obtain ⟨k, rfl⟩ : ∃ k, c = a + m + k := ⟨c - (a + m), by omega⟩
  have e1 : a + m - a = m := by omega
  have e2 : a + m + k - (a + m) = k := by omega
  have e3 : a + m + k - a = m + k := by omega
  rw [e1, e2, e3, List.range'_append_1, Nat.add_comm k m]

theorem runEvents_emitted :
    ∀ (evs : List BufferEvent) (s : StreamingAudioBuffer),
      (runEvents s evs).2.map Prod.snd =
        List.range' s.nextExpectedIndex
          ((runEvents s evs).1.nextExpectedIndex - s.nextExpectedIndex) := by
  intro evs
  induction evs with
  | nil => intro s; simp [runEvents]
  | cons e rest ih =>
    intro s
    have h1 := addAudioChunk_next_mono s e.seg e.chunkIndex e.isComplete e.timestamp
    have h2 := runEvents_next_mono rest
      (addAudioChunk s e.seg e.chunkIndex e.isComplete e.timestamp).1
    show ((addAudioChunk s e.seg e.chunkIndex e.isComplete e.timestamp).2 ++
        (runEvents (addAudioChunk s e.seg e.chunkIndex e.isComplete e.timestamp).1
          rest).2).map Prod.snd = _
    rw [List.map_append, addAudioChunk_emitted, ih]
    rw [show (runEvents s (e :: rest)).1 =
        (runEvents (addAudioChunk s e.seg e.chunkIndex e.isComplete e.timestamp).1 rest).1
      from rfl]
    exact range'_glue _ _ _ h1 h2

theorem runEvents_settled :
    ∀ (evs : List BufferEvent) (i : Nat) (s : StreamingAudioBuffer),
      (∀ e ∈ evs, e.chunkIndex ≠ i) → Settled i s →
      Settled i (runEvents s evs).1 := by
  intro evs
  induction evs with
  | nil => intro i s _ hst; exact hst
  | cons e rest ih =>
    intro i s hne hst
    exact ih i _ (fun e' he' => hne e' (List.mem_cons_of_mem _ he'))
      (addAudioChunk_settled_preserve s e.seg e.chunkIndex e.isComplete e.timestamp i
        (hne e (List.mem_cons_self _ _)) hst)

theorem runEvents_ub (N : Nat) :
    ∀ (evs : List BufferEvent) (s : StreamingAudioBuffer),
      (∀ e ∈ evs, e.chunkIndex < N) →
      (∀ c ∈ s.audioQueue, c.chunkIndex < N) →
      s.nextExpectedIndex ≤ N →
      (∀ c ∈ (runEvents s evs).1.audioQueue, c.chunkIndex < N) ∧
        (runEvents s evs).1.nextExpectedIndex ≤ N := by
  intro evs
  induction evs with
  | nil => intro s _ hq hn; exact ⟨hq, hn⟩
  | cons e rest ih =>
    intro s hev hq hn
    have hstep := addAudioChunk_ub s e.seg e.chunkIndex e.isComplete e.timestamp N hq
      (hev e (List.mem_cons_self _ _)) hn
    exact ih _ (fun e' he' => hev e' (List.mem_cons_of_mem _ he')) hstep.1 hstep.2

end StreamingAudioBuffer

namespace StreamingAudioBuffer

theorem goodState_initial : GoodState initial := by
  refine ⟨⟨?_, ?_⟩, ?_, ?_⟩
  · intro m
    simp [initial]
  · intro c hc
    simp [initial] at hc
  · simp [initial, QueueSorted]
  · intro c hc
    simp [initial] at hc

theorem lastCallComplete_split (i : Nat) :
    ∀ (evs : List BufferEvent), lastCallComplete evs i = true →
      ∃ l e r, evs = l ++ e :: r ∧ e.chunkIndex = i ∧ e.isComplete = true ∧
        ∀ e' ∈ r, e'.chunkIndex ≠ i := by
  intro evs
  induction evs using List.reverseRecOn with
  | nil => intro h; exact Bool.noConfusion h
  | append_singleton xs x ih =>
    intro h
    by_cases hx : x.chunkIndex = i
    · have hfx : List.filter (fun e => e.chunkIndex == i) [x] = [x] := by simp [hx]
      rw [lastCallComplete, List.filter_append, hfx, List.getLast?_concat] at h
      refine ⟨xs, x, [], rfl, hx, h, ?_⟩
      intro e' he'
      cases he'
    · have hfx : List.filter (fun e => e.chunkIndex == i) [x] = [] := by simp [hx]
      rw [lastCallComplete, List.filter_append, hfx, List.append_nil] at h
      obtain ⟨l, e, r, rfl, he1, he2, he3⟩ := ih h
      refine ⟨l, e, r ++ [x], by simp, he1, he2, ?_⟩
      intro e' he'
      rcases List.mem_append.mp he' with h1 | h1
      · exact he3 e' h1
      · rw [List.mem_singleton.mp h1]
        exact hx

theorem settled_final (evs : List BufferEvent) (j : Nat)
    (hlast : lastCallComplete evs j = true) : Settled j (runState evs) := by
  obtain ⟨l, e, r, rfl, he1, he2, he3⟩ := lastCallComplete_split j evs hlast
  have hs1 : Settled j (runEvents (runEvents initial l).1 [e]).1 := by
    show Settled j (addAudioChunk (runEvents initial l).1 e.seg e.chunkIndex
      e.isComplete e.timestamp).1
    rw [he1, he2]
    exact addAudioChunk_settles (runEvents initial l).1 e.seg j e.timestamp
  have hs2 : Settled j (runEvents (runEvents (runEvents initial l).1 [e]).1 r).1 :=
    runEvents_settled r j _ he3 hs1
  have heq : runState (l ++ e :: r) =
      (runEvents (runEvents (runEvents initial l).1 [e]).1 r).1 := by
    rw [runState, show l ++ e :: r = (l ++ [e]) ++ r by simp,
      (runEvents_append (l ++ [e]) r initial).1,
      (runEvents_append l [e] initial).1]
  rw [heq]
  exact hs2

/-- C2: over any delivery interleaving confined to indices `0..n` in which
the last delivery for every index `i ≤ n` marks it complete, the sequence
buffer emits exactly the indices `0..n`, each exactly once, in strictly
ascending order (index `i` is emitted only after `0..i-1`). -/
theorem seqbuffer_inorder_release (n : Nat) (evs : List BufferEvent)
    (hbound : ∀ e ∈ evs, e.chunkIndex < n + 1)
    (hcomp : ∀ i < n + 1, lastCallComplete evs i = true) :
    emittedIndices evs = List.range (n + 1) := by
  have hgen : emittedIndices evs = List.range (runState evs).nextExpectedIndex := by
    rw [emittedIndices, runEvents_emitted, List.range_eq_range']
    rw [show (initial : StreamingAudioBuffer).nextExpectedIndex = 0 from rfl]
    rw [show (runEvents initial evs).1 = runState evs from rfl]
    rw [Nat.sub_zero]
  have hub : (runState evs).nextExpectedIndex ≤ n + 1 := by
    refine (runEvents_ub (n + 1) evs initial hbound ?_ ?_).2
    · intro c hc
      simp [initial] at hc
    · exact Nat.zero_le _
  have hlb : n + 1 ≤ (runState evs).nextExpectedIndex := by
    by_contra hcon
    set sF := runState evs with hsF
    have hj : sF.nextExpectedIndex < n + 1 := Nat.lt_of_not_le hcon
    have hst : Settled sF.nextExpectedIndex sF :=
      settled_final evs sF.nextExpectedIndex (hcomp _ hj)
    have hg : GoodState sF := runEvents_good evs initial goodState_initial
    rcases hst with ⟨c, hc, hci, hcc⟩ | hpr
    · cases hq : sF.audioQueue with
      | nil => rw [hq] at hc; exact absurd hc (List.not_mem_nil c)
      | cons c0 tail =>
        have hceq : c = c0 := by
          rw [hq] at hc
          rcases List.mem_cons.mp hc with rfl | hc2
          · rfl
          · exfalso
            have hsort := hg.2.1
            rw [hq, QueueSorted, List.map_cons, List.pairwise_cons] at hsort
            have h1 : c0.chunkIndex < c.chunkIndex :=
              hsort.1 _ (List.mem_map_of_mem _ hc2)
            have h2 : sF.nextExpectedIndex ≤ c0.chunkIndex :=
              hg.1.2 c0 (by rw [hq]; exact List.mem_cons_self _ _)
            omega
        have hstable := hg.2.2 c0 (by rw [hq]; rfl) (by rw [← hceq, hci])
        rw [← hceq, hcc] at hstable
        exact Bool.noConfusion hstable
    · have := (hg.1.1 sF.nextExpectedIndex).mp hpr
      omega
  rw [hgen, Nat.le_antisymm hub hlb]

theorem seqbuffer_inorder_release_witness :
    emittedIndices
        [⟨"b", 1, true, 5⟩, ⟨"a", 0, true, 6⟩, ⟨"c", 2, true, 7⟩] =
      List.range 3 :=
  seqbuffer_inorder_release 2
    [⟨"b", 1, true, 5⟩, ⟨"a", 0, true, 6⟩, ⟨"c", 2, true, 7⟩]
    (by decide) (by decide)

/-- C7: calling `addAudioChunk` with an index that has already been released
returns the state unchanged and emits nothing; repeating such a call any
number of times therefore leaves the state identical. -/
theorem addAudioChunk_released_noop (s : StreamingAudioBuffer) (seg : String)
    (i : Nat) (comp : Bool) (ts : Nat) (h : i ∈ s.processedChunks) :
    addAudioChunk s seg i comp ts = (s, []) := by
  rw [addAudioChunk, if_pos ((contains_iff_mem _ _).mpr h)]

theorem addAudioChunk_released_noop_witness :
    addAudioChunk ⟨[], 1, [0]⟩ "z" 0 true 9 = (⟨[], 1, [0]⟩, []) :=
  addAudioChunk_released_noop ⟨[], 1, [0]⟩ "z" 0 true 9 (by decide)

/-- C9: at every state reachable from a fresh buffer the released set is
exactly `{0, ..., nextExpectedIndex - 1}` and every queued entry has index
at least `nextExpectedIndex`; `nextExpectedIndex` never decreases along a
run, and `reset()` is the only operation that returns it to `0`. -/
theorem seqbuffer_released_prefix_invariant (evs evs' : List BufferEvent)
    (s : StreamingAudioBuffer) :
    SeqInv (runState evs) ∧
      (runState evs).nextExpectedIndex ≤ (runState (evs ++ evs')).nextExpectedIndex ∧
      (reset s).nextExpectedIndex = 0 ∧ SeqInv (reset s) := by
  refine ⟨(runEvents_good evs initial goodState_initial).1, ?_, rfl, ?_, ?_⟩
  · rw [runState, runState, (runEvents_append evs evs' initial).1]
    exact runEvents_next_mono evs' _
  · intro m
    simp [reset]
  · intro c hc
    simp [reset] at hc

/-- C10: a delivery for a pending (not yet released) index appends its
segment to the existing entry unconditionally — a duplicate segment is
stored twice — and overwrites the entry's completeness flag with the newest
value, so an `isComplete = false` delivery re-marks a previously complete
pending entry as incomplete and defers its release (nothing is emitted for
that index by the call, and the entry stays queued). -/
theorem addAudioChunk_pending_append (s : StreamingAudioBuffer) (seg : String)
    (i : Nat) (comp : Bool) (ts : Nat) (ch : BufferedAudioChunk)
    (hnp : i ∉ s.processedChunks) (hmem : ch ∈ s.audioQueue)
    (hidx : ch.chunkIndex = i) (hsorted : QueueSorted s.audioQueue) :
    (∃ ch' ∈ addChunkToQueue s.audioQueue seg i comp ts,
        ch'.chunkIndex = i ∧ ch'.audioData = ch.audioData ++ [seg] ∧
          ch'.isComplete = comp) ∧
      (comp = false →
        (∀ p ∈ (addAudioChunk s seg i comp ts).2, p.2 ≠ i) ∧
          ∃ ch' ∈ (addAudioChunk s seg i comp ts).1.audioQueue,
            ch'.chunkIndex = i ∧ ch'.isComplete = false) := by
  have hany : s.audioQueue.any (fun c => c.chunkIndex == i) = true :=
    List.any_eq_true.mpr ⟨ch, hmem, by simp [hidx]⟩
  have hfirst : ∃ ch' ∈ addChunkToQueue s.audioQueue seg i comp ts,
      ch'.chunkIndex = i ∧ ch'.audioData = ch.audioData ++ [seg] ∧
        ch'.isComplete = comp := by
    obtain ⟨c, hc, hci, hmem'⟩ := exists_updated_of_any i seg comp s.audioQueue hany
    have hceq : c = ch :=
      queueSorted_eq_of_idx s.audioQueue hsorted c hc ch hmem (hci.trans hidx.symm)
    refine ⟨{ c with audioData := c.audioData ++ [seg], isComplete := comp }, ?_, hci, ?_, rfl⟩
    · rw [addChunkToQueue, if_pos hany]
      exact hmem'
    · rw [hceq]
  refine ⟨hfirst, ?_⟩
  intro hcomp
  subst hcomp
  have hcont : ¬ (s.processedChunks.contains i = true) :=
    fun hcm => hnp ((contains_iff_mem _ _).mp hcm)
  have hallinc : ∀ c' ∈ addChunkToQueue s.audioQueue seg i false ts,
      c'.chunkIndex = i → c'.isComplete = false :=
    addChunkToQueue_all_incomplete s.audioQueue seg i ts hsorted
  have hkept := PRCA_incomplete_kept (addChunkToQueue s.audioQueue seg i false ts)
    s.nextExpectedIndex s.processedChunks i hallinc
  obtain ⟨ch', hch', hidx', _, _⟩ := hfirst
  constructor
  · intro p hp
    rw [addAudioChunk, if_neg hcont] at hp
    exact hkept.1 p hp
  · refine ⟨ch', ?_, hidx', hallinc ch' hch' hidx'⟩
    rw [addAudioChunk, if_neg hcont]
    exact hkept.2 ch' hch' hidx'

theorem addAudioChunk_pending_append_witness :
    (∃ ch' ∈ addChunkToQueue [⟨["x"], 0, 1, false⟩] "x" 0 false 2,
        ch'.chunkIndex = 0 ∧ ch'.audioData = ["x"] ++ ["x"] ∧
          ch'.isComplete = false) ∧
      (false = false →
        (∀ p ∈ (addAudioChunk ⟨[⟨["x"], 0, 1, false⟩], 0, []⟩ "x" 0 false 2).2,
            p.2 ≠ 0) ∧
          ∃ ch' ∈ (addAudioChunk ⟨[⟨["x"], 0, 1, false⟩], 0, []⟩ "x" 0 false 2).1.audioQueue,
            ch'.chunkIndex = 0 ∧ ch'.isComplete = false) :=
  addAudioChunk_pending_append ⟨[⟨["x"], 0, 1, false⟩], 0, []⟩ "x" 0 false 2
    ⟨["x"], 0, 1, false⟩ (by decide) (by decide) (by decide)
    (by simp [QueueSorted])

end StreamingAudioBuffer

/-! ## The validator claim -/

/-- C3: with a watermark installed (`setExpectedText` stores a nonempty
trimmed text), `validateChunk(t)` is valid exactly when `t.trim()` equals
the watermark — case- and punctuation-sensitive, no fuzzy matching; and
immediately after `reset()` every `validateChunk` call is invalid, until a
new watermark is installed. -/
theorem validator_exact_match (v : ChunkValidator) (t u : String)
    (h : v.expectedText ≠ "") :
    ((ChunkValidator.validateChunk v t).isValid = true ↔ t.trim = v.expectedText) ∧
      (ChunkValidator.validateChunk (ChunkValidator.reset v) u).isValid = false := by
  constructor
  · rw [ChunkValidator.validateChunk, if_neg h]
    by_cases h2 : t.trim = v.expectedText
    · have hne : ¬ (t.trim = "") := by rw [h2]; exact h
      simp only [if_neg hne, if_pos h2]
      simp [h2]
    · by_cases h3 : t.trim = ""
      · simp only [if_pos h3]
        simp [h2]
      · simp only [if_neg h3, if_neg h2]
        simp [h2]
  · rw [ChunkValidator.reset, ChunkValidator.validateChunk]
    simp

theorem validator_exact_match_witness :
    ((ChunkValidator.validateChunk ⟨"Hello"⟩ " Hello ").isValid = true ↔
        " Hello ".trim = "Hello") ∧
      (ChunkValidator.validateChunk (ChunkValidator.reset ⟨"Hello"⟩) "Hello").isValid =
        false :=
  validator_exact_match ⟨"Hello"⟩ " Hello " "Hello" (by decide)

/-! ## Lemmas about the scheduler -/

namespace WebAudioStreamer

theorem pcmDecode_duration_nonneg (bytes : List Nat) (b : AudioBuffer)
    (h : pcmDecode bytes = some b) : 0 ≤ b.duration := by
  rw [pcmDecode] at h
  by_cases hc : bytes.length = 0 ∨ bytes.length % 2 = 1
  · rw [if_pos hc] at h
    exact Option.noConfusion h
  · rw [if_neg hc] at h
    have hb := Option.some.inj h
    rw [← hb, AudioBuffer.duration]
    positivity

theorem scheduleChunksAux_cursor_le (q : List AudioBuffer) :
    ∀ t : ℚ, (∀ b ∈ q, 0 ≤ b.duration) → t ≤ (scheduleChunksAux q t).2 := by
  induction q with
  | nil => intro t _; exact le_refl t
  | cons b rest ih =>
    intro t hq
    have h1 : t ≤ t + b.duration :=
      le_add_of_nonneg_right (hq b (List.mem_cons_self _ _))
    exact le_trans h1 (ih (t + b.duration) (fun b' hb' => hq b' (List.mem_cons_of_mem _ hb')))

theorem scheduleChunks_cursor_le (s : WebAudioStreamer) (hq : QueueDurationsOk s) :
    s.nextStartTime ≤ (scheduleChunks s).nextStartTime :=
  scheduleChunksAux_cursor_le s.bufferQueue s.nextStartTime hq

theorem continuePlayback_cursor_le (s : WebAudioStreamer) (now : ℚ)
    (hq : QueueDurationsOk s) :
    s.nextStartTime ≤ (continuePlayback s now).nextStartTime := by
  rw [continuePlayback]
  by_cases hb : ({ s with isPlaying := true } : WebAudioStreamer).nextStartTime ≤ now
  · rw [if_pos hb]
    refine le_trans ?_ (scheduleChunksAux_cursor_le _ _ hq)
    have : (1 : ℚ) / 10 > 0 := by norm_num
    calc s.nextStartTime ≤ now := hb
      _ ≤ now + BUFFER_AHEAD_TIME := by rw [BUFFER_AHEAD_TIME]; linarith
  · rw [if_neg hb]
    exact scheduleChunksAux_cursor_le _ _ hq

theorem startPlayback_cursor_le (s : WebAudioStreamer) (now : ℚ) (ctx : Bool)
    (hq : QueueDurationsOk s) :
    s.nextStartTime ≤ (startPlayback s now ctx).nextStartTime := by
  rw [startPlayback]
  by_cases h0 : s.bufferQueue.length = 0
  · rw [if_pos h0]
  · rw [if_neg h0]
    by_cases hctx : ctx = true
    · rw [if_pos hctx]
      exact continuePlayback_cursor_le s now hq
    · rw [if_neg hctx]

theorem queueDurationsOk_after_push (s : WebAudioStreamer) (b : AudioBuffer)
    (hq : QueueDurationsOk s) (hb : 0 ≤ b.duration) (q' : List AudioBuffer)
    (hsub : ∀ x ∈ q', x ∈ s.bufferQueue) :
    ∀ x ∈ q' ++ [b], 0 ≤ x.duration := by
  intro x hx
  rcases List.mem_append.mp hx with h1 | h1
  · exact hq x (hsub x h1)
  · rw [List.mem_singleton.mp h1]
    exact hb

end WebAudioStreamer

namespace WebAudioStreamer

theorem playback_dispatch_cursor_le (s3 : WebAudioStreamer) (now : ℚ) (ctx : Bool)
    (hq3 : ∀ x ∈ s3.bufferQueue, 0 ≤ x.duration) :
    s3.nextStartTime ≤
      (if s3.isPlaying = false then startPlayback s3 now ctx
        else scheduleChunks s3).nextStartTime := by
  split
  · exact startPlayback_cursor_le s3 now ctx hq3
  · exact scheduleChunks_cursor_le s3 hq3

theorem dropIfFull_nextStartTime (s : WebAudioStreamer) :
    (dropIfFull s).nextStartTime = s.nextStartTime := by
  rw [dropIfFull]
  split <;> rfl

theorem dropIfFull_queue_subset (s : WebAudioStreamer) {x : AudioBuffer}
    (hx : x ∈ (dropIfFull s).bufferQueue) : x ∈ s.bufferQueue := by
  rw [dropIfFull] at hx
  by_cases h : MAX_BUFFER_SIZE ≤ s.bufferQueue.length
  · rw [if_pos h] at hx
    exact List.mem_of_mem_drop hx
  · rw [if_neg h] at hx
    exact hx

theorem enqueueDecoded_cursor_le (s : WebAudioStreamer) (now : ℚ) (ctx : Bool)
    (b : AudioBuffer) (hq : QueueDurationsOk s) (hb : 0 ≤ b.duration) :
    s.nextStartTime ≤ (enqueueDecoded s now ctx b).nextStartTime := by
  have hq3 : ∀ x ∈ (pushDecoded (dropIfFull s) b).bufferQueue, 0 ≤ x.duration := by
    intro x hx
    have hx' : x ∈ (dropIfFull s).bufferQueue ++ [b] := hx
    rcases List.mem_append.mp hx' with h1 | h1
    · exact hq x (dropIfFull_queue_subset s h1)
    · rw [List.mem_singleton.mp h1]
      exact hb
  have hcur : (pushDecoded (dropIfFull s) b).nextStartTime = s.nextStartTime := by
    rw [show (pushDecoded (dropIfFull s) b).nextStartTime = (dropIfFull s).nextStartTime
      from rfl]
    exact dropIfFull_nextStartTime s
  rw [enqueueDecoded, ← hcur]
  exact playback_dispatch_cursor_le (pushDecoded (dropIfFull s) b) now ctx hq3

theorem enqueue_cursor_le (mp3Decode : List Nat → Option AudioBuffer)
    (s : WebAudioStreamer) (now : ℚ) (ctx : Bool) (payload : String) (isPCM : Bool)
    (hmp3 : ∀ bs b, mp3Decode bs = some b → 0 ≤ b.duration)
    (hq : QueueDurationsOk s) :
    s.nextStartTime ≤ (enqueue mp3Decode s now ctx payload isPCM).nextStartTime := by
  rw [enqueue]
  split
  · exact le_refl _
  · split
    · exact le_refl _
    · next bytes hat =>
      split
      · exact le_refl _
      · next b hdec =>
        have hb : 0 ≤ b.duration := by
          by_cases hpcm : isPCM = true
          · rw [if_pos hpcm] at hdec
            exact pcmDecode_duration_nonneg bytes b hdec
          · rw [if_neg hpcm] at hdec
            exact hmp3 bytes b hdec
        exact enqueueDecoded_cursor_le (pushRaw s bytes) now ctx b hq hb

theorem scheduleChunksAux_chained :
    ∀ (q : List AudioBuffer) (t : ℚ),
      Chained (scheduleChunksAux q t).1 (scheduleChunksAux q t).2 := by
  intro q
  induction q with
  | nil => intro t; exact trivial
  | cons b rest ih =>
    intro t
    cases rest with
    | nil => exact rfl
    | cons b2 rest2 => exact ⟨rfl, ih (t + b.duration)⟩

theorem chained_append_schedule :
    ∀ (l : List ScheduledSource) (t : ℚ) (q : List AudioBuffer),
      Chained l t → Chained (l ++ (scheduleChunksAux q t).1) (scheduleChunksAux q t).2 := by
  intro l
  induction l with
  | nil => intro t q _; exact scheduleChunksAux_chained q t
  | cons x l ih =>
    intro t q hch
    cases l with
    | nil =>
      cases q with
      | nil => exact hch
      | cons b q2 => exact ⟨hch, scheduleChunksAux_chained (b :: q2) t⟩
    | cons y l2 => exact ⟨hch.1, ih t q hch.2⟩

theorem scheduleChunks_chained (s : WebAudioStreamer)
    (hch : Chained s.scheduleLog s.nextStartTime) :
    Chained (scheduleChunks s).scheduleLog (scheduleChunks s).nextStartTime :=
  chained_append_schedule s.scheduleLog s.nextStartTime s.bufferQueue hch

theorem chained_adjacent :
    ∀ (l : List ScheduledSource) (t : ℚ), Chained l t →
      ∀ j, j + 1 < l.length →
        (l.getD (j + 1) dummySource).startTime =
          (l.getD j dummySource).startTime + (l.getD j dummySource).buffer.duration := by
  intro l
  induction l with
  | nil => intro t _ j hj; simp at hj
  | cons x l ih =>
    intro t hch j hj
    cases l with
    | nil => simp at hj
    | cons y l2 =>
      cases j with
      | zero => exact hch.1
      | succ j2 =>
        refine ih t hch.2 j2 ?_
        simp only [List.length_cons] at hj ⊢
        omega

end WebAudioStreamer

namespace WebAudioStreamer

theorem dropIfFull_scheduleLog (s : WebAudioStreamer) :
    (dropIfFull s).scheduleLog = s.scheduleLog := by
  rw [dropIfFull]
  split <;> rfl

theorem dropIfFull_isPlaying (s : WebAudioStreamer) :
    (dropIfFull s).isPlaying = s.isPlaying := by
  rw [dropIfFull]
  split <;> rfl

theorem continuePlayback_chained (s : WebAudioStreamer) (now : ℚ)
    (hch : Chained s.scheduleLog s.nextStartTime) (hnow : now < s.nextStartTime) :
    Chained (continuePlayback s now).scheduleLog (continuePlayback s now).nextStartTime := by
  rw [continuePlayback]
  have hb : ¬ (({ s with isPlaying := true } : WebAudioStreamer).nextStartTime ≤ now) :=
    not_le.mpr hnow
  rw [if_neg hb]
  exact scheduleChunks_chained { s with isPlaying := true } hch

theorem startPlayback_chained (s : WebAudioStreamer) (now : ℚ) (ctx : Bool)
    (hch : Chained s.scheduleLog s.nextStartTime) (hnow : now < s.nextStartTime) :
    Chained (startPlayback s now ctx).scheduleLog (startPlayback s now ctx).nextStartTime := by
  rw [startPlayback]
  split
  · exact hch
  · split
    · exact continuePlayback_chained s now hch hnow
    · exact hch

theorem enqueueDecoded_chained (s : WebAudioStreamer) (now : ℚ) (ctx : Bool)
    (b : AudioBuffer) (hch : Chained s.scheduleLog s.nextStartTime)
    (hplay : s.isPlaying = true ∨ now < s.nextStartTime) :
    Chained (enqueueDecoded s now ctx b).scheduleLog
      (enqueueDecoded s now ctx b).nextStartTime := by
  have h1 : (pushDecoded (dropIfFull s) b).scheduleLog = s.scheduleLog := by
    rw [show (pushDecoded (dropIfFull s) b).scheduleLog = (dropIfFull s).scheduleLog
      from rfl]
    exact dropIfFull_scheduleLog s
  have h2 : (pushDecoded (dropIfFull s) b).nextStartTime = s.nextStartTime := by
    rw [show (pushDecoded (dropIfFull s) b).nextStartTime = (dropIfFull s).nextStartTime
      from rfl]
    exact dropIfFull_nextStartTime s
  have hch3 : Chained (pushDecoded (dropIfFull s) b).scheduleLog
      (pushDecoded (dropIfFull s) b).nextStartTime := by
    rw [h1, h2]
    exact hch
  rw [enqueueDecoded]
  split
  · next hpl =>
    have hsPlay : s.isPlaying = false := by
      have h3 : (pushDecoded (dropIfFull s) b).isPlaying = s.isPlaying := by
        rw [show (pushDecoded (dropIfFull s) b).isPlaying = (dropIfFull s).isPlaying
          from rfl]
        exact dropIfFull_isPlaying s
      rw [← h3]
      exact hpl
    have hnow : now < s.nextStartTime := by
      rcases hplay with h | h
      · rw [hsPlay] at h
        exact Bool.noConfusion h
      · exact h
    refine startPlayback_chained _ now ctx hch3 ?_
    rw [h2]
    exact hnow
  · exact scheduleChunks_chained _ hch3

theorem enqueue_chained (mp3Decode : List Nat → Option AudioBuffer)
    (s : WebAudioStreamer) (now : ℚ) (ctx : Bool) (payload : String) (isPCM : Bool)
    (hch : Chained s.scheduleLog s.nextStartTime)
    (hplay : s.isPlaying = true ∨ now < s.nextStartTime) :
    Chained (enqueue mp3Decode s now ctx payload isPCM).scheduleLog
      (enqueue mp3Decode s now ctx payload isPCM).nextStartTime := by
  rw [enqueue]
  split
  · exact hch
  · split
    · exact hch
    · next bytes hat =>
      split
      · exact hch
      · next b hdec =>
        exact enqueueDecoded_chained (pushRaw s bytes) now ctx b hch hplay

end WebAudioStreamer

namespace WebAudioStreamer

theorem enqueueDecoded_overflow (s : WebAudioStreamer) (now : ℚ) (ctx : Bool)
    (b : AudioBuffer) (hfull : s.bufferQueue.length = MAX_BUFFER_SIZE)
    (hplay : s.isPlaying = false) (hctx : ctx = false) :
    enqueueDecoded s now ctx b = pushDecoded (dropIfFull s) b ∧
      (pushDecoded (dropIfFull s) b).bufferQueue = s.bufferQueue.drop 1 ++ [b] := by
  have hqueue : (pushDecoded (dropIfFull s) b).bufferQueue =
      s.bufferQueue.drop 1 ++ [b] := by
    rw [show (pushDecoded (dropIfFull s) b).bufferQueue =
        (dropIfFull s).bufferQueue ++ [b] from rfl]
    rw [dropIfFull, if_pos (le_of_eq hfull.symm)]
  refine ⟨?_, hqueue⟩
  rw [enqueueDecoded]
  have hpl3 : (pushDecoded (dropIfFull s) b).isPlaying = false := by
    rw [show (pushDecoded (dropIfFull s) b).isPlaying = (dropIfFull s).isPlaying from rfl,
      dropIfFull_isPlaying]
    exact hplay
  rw [if_pos hpl3, startPlayback]
  have hlen : ¬ ((pushDecoded (dropIfFull s) b).bufferQueue.length = 0) := by
    rw [hqueue]
    simp
  rw [if_neg hlen, hctx]
  simp

theorem enqueueDecoded_queue_cap (s : WebAudioStreamer) (now : ℚ) (ctx : Bool)
    (b : AudioBuffer) (hcap : s.bufferQueue.length ≤ MAX_BUFFER_SIZE) :
    (enqueueDecoded s now ctx b).bufferQueue.length ≤ MAX_BUFFER_SIZE := by
  have h3 : (pushDecoded (dropIfFull s) b).bufferQueue.length ≤ MAX_BUFFER_SIZE := by
    rw [show (pushDecoded (dropIfFull s) b).bufferQueue =
        (dropIfFull s).bufferQueue ++ [b] from rfl, List.length_append]
    by_cases h : MAX_BUFFER_SIZE ≤ s.bufferQueue.length
    · rw [dropIfFull, if_pos h]
      simp only [List.length_drop, List.length_singleton]
      rw [MAX_BUFFER_SIZE] at *
      omega
    · rw [dropIfFull, if_neg h]
      simp only [List.length_singleton]
      omega
  rw [enqueueDecoded]
  split
  · rw [startPlayback]
    split
    · exact h3
    · split
      · show (List.length ([] : List AudioBuffer)) ≤ MAX_BUFFER_SIZE
        exact Nat.zero_le _
      · exact h3
  · show (List.length ([] : List AudioBuffer)) ≤ MAX_BUFFER_SIZE
    exact Nat.zero_le _

end WebAudioStreamer

namespace WebAudioStreamer

/-- C1: (i) any `enqueue` performed while the scheduler is playing — or
before the clock has reached the cursor — preserves the gapless-chain
invariant tying the schedule log to the cursor (so every buffer scheduled
during a single playing run starts exactly where the previous one ends);
(ii) a chained log satisfies `start(j+1) = start(j) + duration(j)` for every
consecutive pair; (iii) scheduling three 0.5 s buffers from a fresh
streamer created at clock `t` assigns start times `t₀`, `t₀ + 0.5`,
`t₀ + 1.0` with `t₀ = t + BUFFER_AHEAD_TIME`. -/
theorem scheduler_gapless_starts :
    (∀ (mp3Decode : List Nat → Option AudioBuffer) (s : WebAudioStreamer) (now : ℚ)
        (ctx : Bool) (payload : String) (isPCM : Bool),
        Chained s.scheduleLog s.nextStartTime →
        (s.isPlaying = true ∨ now < s.nextStartTime) →
        Chained (enqueue mp3Decode s now ctx payload isPCM).scheduleLog
          (enqueue mp3Decode s now ctx payload isPCM).nextStartTime) ∧
      (∀ (l : List ScheduledSource) (t : ℚ), Chained l t →
        ∀ j, j + 1 < l.length →
          (l.getD (j + 1) dummySource).startTime =
            (l.getD j dummySource).startTime +
              (l.getD j dummySource).buffer.duration) ∧
      (∀ t : ℚ,
        (scheduleChunks
            { initial t with
                bufferQueue :=
                  [halfSecondBuffer, halfSecondBuffer, halfSecondBuffer] }).scheduleLog.map
            ScheduledSource.startTime =
          [t + 1 / 10, t + 1 / 10 + 1 / 2, t + 1 / 10 + 1]) := by
  refine ⟨enqueue_chained, chained_adjacent, ?_⟩
  intro t
  show ([] ++ (scheduleChunksAux [halfSecondBuffer, halfSecondBuffer, halfSecondBuffer]
      (t + BUFFER_AHEAD_TIME)).1).map ScheduledSource.startTime = _
  norm_num [scheduleChunksAux, halfSecondBuffer, AudioBuffer.duration, BUFFER_AHEAD_TIME]
  ring

theorem scheduler_gapless_starts_witness :
    (([⟨halfSecondBuffer, 1 / 10⟩, ⟨halfSecondBuffer, 6 / 10⟩] :
          List ScheduledSource).getD 1 dummySource).startTime =
      (([⟨halfSecondBuffer, 1 / 10⟩, ⟨halfSecondBuffer, 6 / 10⟩] :
          List ScheduledSource).getD 0 dummySource).startTime +
        (([⟨halfSecondBuffer, 1 / 10⟩, ⟨halfSecondBuffer, 6 / 10⟩] :
          List ScheduledSource).getD 0 dummySource).buffer.duration :=
  scheduler_gapless_starts.2.1
    [⟨halfSecondBuffer, 1 / 10⟩, ⟨halfSecondBuffer, 6 / 10⟩] (11 / 10)
    ⟨by norm_num [halfSecondBuffer, AudioBuffer.duration],
      by norm_num [Chained, halfSecondBuffer, AudioBuffer.duration]⟩
    0 (by norm_num)

/-- C4: `stop()` called from any state terminates every active source and
empties the pending queue; `getStatus()` afterwards reports
`isPlaying = false` and `queueSize = 0`; and a second `stop()` at the same
clock value is the identity on the stopped state (idempotence). -/
theorem stop_clears_and_idempotent (s : WebAudioStreamer) (now : ℚ) :
    (stop s now).scheduledSources = [] ∧
      (stop s now).bufferQueue = [] ∧
      (getStatus (stop s now) now).isPlaying = false ∧
      (getStatus (stop s now) now).queueSize = 0 ∧
      stop (stop s now) now = stop s now :=
  ⟨rfl, rfl, rfl, rfl, rfl⟩

/-- C6: `enqueue` absorbs every decode failure (the body is one
`try`/`catch`, and the embedding is a total function): when the decode
pipeline yields nothing — malformed base64, odd-length or empty PCM
payload, or an undecodable compressed payload — the chunk is skipped and
the timeline cursor, pending queue, scheduled sources, playing flag, chunk
counters and schedule log are all left exactly as they were. -/
theorem enqueue_decode_failure_skips (mp3Decode : List Nat → Option AudioBuffer)
    (s : WebAudioStreamer) (now : ℚ) (ctx : Bool) (payload : String) (isPCM : Bool)
    (hfail : decodeChunk mp3Decode payload isPCM = none) :
    (enqueue mp3Decode s now ctx payload isPCM).nextStartTime = s.nextStartTime ∧
      (enqueue mp3Decode s now ctx payload isPCM).bufferQueue = s.bufferQueue ∧
      (enqueue mp3Decode s now ctx payload isPCM).scheduledSources = s.scheduledSources ∧
      (enqueue mp3Decode s now ctx payload isPCM).isPlaying = s.isPlaying ∧
      (enqueue mp3Decode s now ctx payload isPCM).totalChunksReceived =
        s.totalChunksReceived ∧
      (enqueue mp3Decode s now ctx payload isPCM).totalChunksPlayed =
        s.totalChunksPlayed ∧
      (enqueue mp3Decode s now ctx payload isPCM).scheduleLog = s.scheduleLog := by
  rw [enqueue]
  split
  · exact ⟨rfl, rfl, rfl, rfl, rfl, rfl, rfl⟩
  · split
    · exact ⟨rfl, rfl, rfl, rfl, rfl, rfl, rfl⟩
    · next bytes hat =>
      split
      · exact ⟨rfl, rfl, rfl, rfl, rfl, rfl, rfl⟩
      · next b hdec =>
        exfalso
        rw [decodeChunk, hat] at hfail
        have hfail2 : (if isPCM = true then pcmDecode bytes else mp3Decode bytes) =
            none := hfail
        rw [hfail2] at hdec
        exact Option.noConfusion hdec

theorem enqueue_decode_failure_skips_witness :
    (enqueue (fun _ => none) (initial 0) 0 true "%" true).nextStartTime =
        (initial 0).nextStartTime ∧
      (enqueue (fun _ => none) (initial 0) 0 true "%" true).bufferQueue =
        (initial 0).bufferQueue ∧
      (enqueue (fun _ => none) (initial 0) 0 true "%" true).scheduledSources =
        (initial 0).scheduledSources ∧
      (enqueue (fun _ => none) (initial 0) 0 true "%" true).isPlaying =
        (initial 0).isPlaying ∧
      (enqueue (fun _ => none) (initial 0) 0 true "%" true).totalChunksReceived =
        (initial 0).totalChunksReceived ∧
      (enqueue (fun _ => none) (initial 0) 0 true "%" true).totalChunksPlayed =
        (initial 0).totalChunksPlayed ∧
      (enqueue (fun _ => none) (initial 0) 0 true "%" true).scheduleLog =
        (initial 0).scheduleLog :=
  enqueue_decode_failure_skips (fun _ => none) (initial 0) 0 true "%" true (by decide)

end WebAudioStreamer

namespace WebAudioStreamer

/-- C5 (amended): when the pending queue already holds `MAX_BUFFER_SIZE`
buffers and a chunk decodes successfully, `enqueue` drops the oldest
unscheduled buffer (the queue becomes `tail ++ [new]`) and the pending
queue length never exceeds the capacity; but `getStatus()` reports the
hard-coded constant `0` for `bufferOverflows` — drops are logged, never
counted. -/
theorem enqueue_overflow_drop_policy :
    (∀ (mp3Decode : List Nat → Option AudioBuffer) (s : WebAudioStreamer) (now : ℚ)
        (ctx : Bool) (payload : String) (isPCM : Bool) (b : AudioBuffer),
        s.bufferQueue.length = MAX_BUFFER_SIZE → s.isPlaying = false → ctx = false →
        ¬ (payload = "") → decodeChunk mp3Decode payload isPCM = some b →
        (enqueue mp3Decode s now ctx payload isPCM).bufferQueue =
            s.bufferQueue.drop 1 ++ [b] ∧
          (enqueue mp3Decode s now ctx payload isPCM).bufferQueue.length =
            MAX_BUFFER_SIZE) ∧
      (∀ (mp3Decode : List Nat → Option AudioBuffer) (s : WebAudioStreamer) (now : ℚ)
        (ctx : Bool) (payload : String) (isPCM : Bool),
        s.bufferQueue.length ≤ MAX_BUFFER_SIZE →
        (enqueue mp3Decode s now ctx payload isPCM).bufferQueue.length ≤
          MAX_BUFFER_SIZE) ∧
      (∀ (s : WebAudioStreamer) (now : ℚ),
        (getStatus s now).analytics.bufferOverflows = 0) := by
  refine ⟨?_, ?_, fun s now => rfl⟩
  · intro mp3Decode s now ctx payload isPCM b hfull hplay hctx hne hdec
    rw [decodeChunk] at hdec
    cases hat : atob payload with
    | none =>
      rw [hat] at hdec
      exact Option.noConfusion hdec
    | some bytes =>
      rw [hat] at hdec
      have hdec2 : (if isPCM = true then pcmDecode bytes else mp3Decode bytes) =
          some b := hdec
      rw [enqueue, if_neg hne]
      simp only [hat, hdec2]
      obtain ⟨heq, hqueue⟩ := enqueueDecoded_overflow (pushRaw s bytes) now ctx b
        hfull hplay hctx
      rw [heq, hqueue]
      refine ⟨rfl, ?_⟩
      rw [List.length_append, List.length_drop]
      have hfull2 : (pushRaw s bytes).bufferQueue.length = MAX_BUFFER_SIZE := hfull
      rw [hfull2, MAX_BUFFER_SIZE]
      simp
  · intro mp3Decode s now ctx payload isPCM hcap
    rw [enqueue]
    split
    · exact hcap
    · split
      · exact hcap
      · next bytes hat =>
        split
        · exact hcap
        · next b hdec =>
          exact enqueueDecoded_queue_cap (pushRaw s bytes) now ctx b hcap

theorem enqueue_overflow_drop_policy_witness :
    (enqueue (fun _ => none) fullStreamer 0 false "AAA=" true).bufferQueue =
        fullStreamer.bufferQueue.drop 1 ++
          [{ length := 1, sampleRate := 48000, channelData := [0] }] ∧
      (enqueue (fun _ => none) fullStreamer 0 false "AAA=" true).bufferQueue.length =
        MAX_BUFFER_SIZE :=
  enqueue_overflow_drop_policy.1 (fun _ => none) fullStreamer 0 false "AAA=" true
    { length := 1, sampleRate := 48000, channelData := [0] }
    (by decide) (by decide) (by decide) (by decide)
    (by
      have hat : atob "AAA=" = some [0, 0] := by decide
      simp [decodeChunk, hat, pcmDecode, int16OfBytes]
      rw [show List.range 1 = [0] from rfl]
      norm_num)

/-- C5 counterexample to the claim as stated: at a full queue the drop does
happen (the oldest buffer, of length 1, disappears and the queue stays at
ten entries), yet the `bufferOverflows` analytics field reported by
`getStatus()` does not increment — it is `0` before and after. -/
theorem enqueue_overflow_counter_not_incremented :
    (enqueue (fun _ => none) fullStreamer 0 false "AAA=" true).bufferQueue.map
        AudioBuffer.length = [2, 3, 4, 5, 6, 7, 8, 9, 10, 1] ∧
      fullStreamer.bufferQueue.map AudioBuffer.length =
        [1, 2, 3, 4, 5, 6, 7, 8, 9, 10] ∧
      ¬ ((getStatus (enqueue (fun _ => none) fullStreamer 0 false "AAA=" true)
            0).analytics.bufferOverflows =
          (getStatus fullStreamer 0).analytics.bufferOverflows + 1) := by
  refine ⟨?_, by decide, by decide⟩
  decide

end WebAudioStreamer

namespace WebAudioStreamer

/-- C8 counterexample to the claim as stated: scheduling a decoded chunk
advances the cursor beyond `now + BUFFER_AHEAD_TIME`; a `stop()` at the
same clock value resets the cursor to `now + BUFFER_AHEAD_TIME`, strictly
decreasing it — so `nextStartTime` is not monotone across sequences that
include `stop()`. -/
theorem nextStartTime_decreases_on_stop :
    (stop (enqueue (fun _ => none) (initial 0) 0 true "AAA=" true) 0).nextStartTime <
      (enqueue (fun _ => none) (initial 0) 0 true "AAA=" true).nextStartTime := by
  have h : atob "AAA=" = some [0, 0] := by decide
  have h0 : ¬ ("AAA=" = "") := by decide
  norm_num [h0, enqueue, stop, initial, h, pcmDecode, startPlayback, continuePlayback,
    scheduleChunks, scheduleChunksAux, pushRaw, dropIfFull, pushDecoded, enqueueDecoded,
    BUFFER_AHEAD_TIME, MAX_BUFFER_SIZE, AudioBuffer.duration]

/-- C8 (amended): the cursor `nextStartTime` never decreases under
`enqueue` (durations of decodable buffers are nonnegative) or under the
resume callback, and source completion leaves it untouched; but `stop()`
and `resetSession()` reset it to `now + BUFFER_AHEAD_TIME`, which moves it
backwards whenever more than the lookahead is already scheduled (see the
counterexample). -/
theorem nextStartTime_monotone_between_stops
    (mp3Decode : List Nat → Option AudioBuffer) (s : WebAudioStreamer) (now : ℚ)
    (ctx : Bool) (payload : String) (isPCM : Bool) (src : ScheduledSource)
    (hmp3 : ∀ bs b, mp3Decode bs = some b → 0 ≤ b.duration)
    (hq : QueueDurationsOk s) :
    s.nextStartTime ≤ (enqueue mp3Decode s now ctx payload isPCM).nextStartTime ∧
      s.nextStartTime ≤ (resumed s now).nextStartTime ∧
      (sourceEnded s src).nextStartTime = s.nextStartTime ∧
      (stop s now).nextStartTime = now + BUFFER_AHEAD_TIME ∧
      (resetSession s now).nextStartTime = now + BUFFER_AHEAD_TIME := by
  refine ⟨enqueue_cursor_le mp3Decode s now ctx payload isPCM hmp3 hq,
    continuePlayback_cursor_le s now hq, ?_, rfl, rfl⟩
  rw [sourceEnded]
  split <;> rfl

theorem nextStartTime_monotone_between_stops_witness :
    (initial 0).nextStartTime ≤
        (enqueue (fun _ => none) (initial 0) 0 true "AAA=" true).nextStartTime ∧
      (initial 0).nextStartTime ≤ (resumed (initial 0) 0).nextStartTime ∧
      (sourceEnded (initial 0) dummySource).nextStartTime = (initial 0).nextStartTime ∧
      (stop (initial 0) 0).nextStartTime = 0 + BUFFER_AHEAD_TIME ∧
      (resetSession (initial 0) 0).nextStartTime = 0 + BUFFER_AHEAD_TIME :=
  nextStartTime_monotone_between_stops (fun _ => none) (initial 0) 0 true "AAA=" true
    dummySource (fun _ _ h => Option.noConfusion h)
    (fun b hb => absurd hb (List.not_mem_nil b))

end WebAudioStreamer
